import Mathlib

/-!
Verification development for the reactive key/value fabric in this
repository.  The definitions below are a shallow embedding of the Rust
sources: `HashMap`/`BTreeMap` values become association lists (with the
map's key-uniqueness reflected by deduplicating key iteration),
`usize`/`u64` become `Nat`, and panics become `Except.error`.  Each
definition is named after the source item it embeds and carries a doc
comment pointing at the file it was translated from.
-/

/-- Address of an actor: `actor.rs` `struct Address { index: usize }`. -/
structure Address where
  index : Nat
deriving DecidableEq, Repr

/-- Version counter, `actor.rs` `struct Version(usize)`. -/
abbrev Version := Nat

/-- Iteration counter, `message.rs` `struct Iteration(usize)`. -/
abbrev Iteration := Nat

/-- Transaction priority, `message.rs` `enum TxPriority { High = 0, Low = 1 }`. -/
inductive TxPriority where
  | high
  | low
deriving DecidableEq, Repr

/-- Numeric value of a priority, mirroring the discriminants in `message.rs`. -/
def TxPriority.toNat : TxPriority → Nat
  | .high => 0
  | .low => 1

/-- Transaction identifier, `message.rs` `struct TxId { priority, timestamp, address }`.
The `timestamp` is `epoch_micros : u64` modelled as `Nat`. -/
structure TxId where
  priority : TxPriority
  timestamp : Nat
  address : Address
deriving DecidableEq, Repr

/-- Lexicographic strict order on `TxId`, as the derived `Ord` of the source
(`priority`, then `timestamp`, then `address` by its `index`). -/
def TxId.lt (a b : TxId) : Bool :=
  a.priority.toNat < b.priority.toNat ∨
    (a.priority.toNat = b.priority.toNat ∧
      (a.timestamp < b.timestamp ∨
        (a.timestamp = b.timestamp ∧ a.address.index < b.address.index)))

/-- Lock kind, `message.rs` `enum LockKind { Shared, Exclusive }`. -/
inductive LockKind where
  | shared
  | exclusive
deriving DecidableEq, Repr

/-- Identifier of a reactive inside one node, `node.rs` `struct ReactiveId(usize)`. -/
structure ReactiveId where
  id : Nat
deriving DecidableEq, Repr

/-- Network-wide identifier of a reactive, `node.rs` `struct ReactiveAddress`. -/
structure ReactiveAddress where
  address : Address
  id : ReactiveId
deriving DecidableEq, Repr

/-! Association-list helpers.  A Rust `HashMap<K, V>` is embedded as a
`List (K × V)`; lookups take the first matching entry, and iteration over a
map's distinct keys is embedded by deduplicating the key list, which is the
semantics a `HashMap` guarantees by construction. -/

/-- Lookup of the first entry with the given key (`HashMap::get`). -/
def getA {K V : Type} [DecidableEq K] : List (K × V) → K → Option V
  | [], _ => none
  | (k, v) :: rest, key => if k = key then some v else getA rest key

/-- Replacement of the first entry with the given key, appending when the key
is absent (`HashMap::insert`). -/
def setA {K V : Type} [DecidableEq K] : List (K × V) → K → V → List (K × V)
  | [], key, value => [(key, value)]
  | (k, v) :: rest, key, value =>
    if k = key then (k, value) :: rest else (k, v) :: setA rest key value

/-- Removal of the first entry with the given key (`HashMap::remove`). -/
def removeA {K V : Type} [DecidableEq K] : List (K × V) → K → List (K × V)
  | [], _ => []
  | (k, v) :: rest, key => if k = key then rest else (k, v) :: removeA rest key

/-- Keys of an association list. -/
def keysA {K V : Type} (l : List (K × V)) : List K := l.map Prod.fst

/-- Worker of `entriesD`, skipping entries whose key was already seen. -/
def entriesDGo {K V : Type} [DecidableEq K] (seen : List K) :
    List (K × V) → List (K × V)
  | [] => []
  | (k, v) :: rest =>
    if k ∈ seen then entriesDGo seen rest else (k, v) :: entriesDGo (k :: seen) rest

/-- Entries of an association list with one entry per distinct key (first
occurrence wins): the iteration order of a `HashMap`, whose keys are unique. -/
def entriesD {K V : Type} [DecidableEq K] (l : List (K × V)) : List (K × V) :=
  entriesDGo [] l

theorem getA_entriesDGo {K V : Type} [DecidableEq K] (l : List (K × V)) :
    ∀ (seen : List K) (key : K),
      getA (entriesDGo seen l) key = if key ∈ seen then none else getA l key := by
  induction l with
  | nil =>
    intro seen key
    by_cases h : key ∈ seen <;> simp [entriesDGo, getA, h]
  | cons e rest ih =>
    intro seen key
    obtain ⟨k, v⟩ := e
    by_cases hk : k ∈ seen
    · rw [entriesDGo, if_pos hk, ih]
      by_cases hkey : key ∈ seen
      · simp [hkey]
      · have hne : ¬k = key := fun hc => hkey (hc ▸ hk)
        simp [hkey, getA, hne]
    · rw [entriesDGo, if_neg hk]
      by_cases hkeq : k = key
      · subst hkeq
        simp [getA, hk]
      · simp only [getA, hkeq, if_false, ih]
        have hne : ¬key = k := fun hc => hkeq hc.symm
        by_cases hkey : key ∈ seen
        · simp [List.mem_cons, hne, hkey]
        · simp [List.mem_cons, hne, hkey]

theorem getA_entriesD {K V : Type} [DecidableEq K] (l : List (K × V)) (k : K) :
    getA (entriesD l) k = getA l k := by
  rw [entriesD, getA_entriesDGo]
  simp

theorem mem_entriesDGo {K V : Type} [DecidableEq K] (l : List (K × V)) :
    ∀ (seen : List K) (p : K × V), p ∈ entriesDGo seen l → p ∈ l := by
  induction l with
  | nil => intro seen p h; simp [entriesDGo] at h
  | cons e rest ih =>
    intro seen p h
    obtain ⟨k, v⟩ := e
    by_cases hk : k ∈ seen
    · rw [entriesDGo, if_pos hk] at h
      exact List.mem_cons_of_mem _ (ih seen p h)
    · rw [entriesDGo, if_neg hk] at h
      rcases List.mem_cons.mp h with h | h
      · simp [h]
      · exact List.mem_cons_of_mem _ (ih _ p h)

theorem mem_entriesD {K V : Type} [DecidableEq K] (l : List (K × V)) (p : K × V)
    (h : p ∈ entriesD l) : p ∈ l :=
  mem_entriesDGo l [] p h

theorem keysA_entriesDGo_nodup {K V : Type} [DecidableEq K] (l : List (K × V)) :
    ∀ seen : List K,
      (keysA (entriesDGo seen l)).Nodup ∧ ∀ k ∈ keysA (entriesDGo seen l), k ∉ seen := by
  induction l with
  | nil => intro seen; simp [entriesDGo, keysA]
  | cons e rest ih =>
    intro seen
    obtain ⟨k, v⟩ := e
    by_cases hk : k ∈ seen
    · rw [entriesDGo, if_pos hk]
      exact ih seen
    · rw [entriesDGo, if_neg hk]
      obtain ⟨hnd, hnotin⟩ := ih (k :: seen)
      refine ⟨?_, ?_⟩
      · simp only [keysA, List.map_cons, List.nodup_cons]
        exact ⟨fun hmem => (hnotin k hmem) (List.mem_cons_self _ _), hnd⟩
      · intro k' hk'
        simp only [keysA, List.map_cons, List.mem_cons] at hk'
        rcases hk' with hk' | hk'
        · exact hk' ▸ hk
        · exact fun hmem => (hnotin k' hk') (List.mem_cons_of_mem _ hmem)

theorem keysA_entriesD_nodup {K V : Type} [DecidableEq K] (l : List (K × V)) :
    (keysA (entriesD l)).Nodup :=
  (keysA_entriesDGo_nodup l []).1

/-! Basis stamps.  `message.rs` defines `BasisStamp` as a finite map from
root address to iteration; the node sources (`node.rs`, `node/reactive.rs`)
use the same structure keyed by `ReactiveAddress` under the field name
`roots`.  The operations are shared through list-level helpers. -/

/-- Iteration recorded for a key, `0` when absent: `BasisStamp::latest`. -/
def latestL {K : Type} [DecidableEq K] (l : List (K × Nat)) (k : K) : Nat :=
  (getA l k).getD 0

/-- Entry update of `BasisStamp::add`: a vacant key is inserted, an occupied
key keeps the maximum of old and new iteration. -/
def addL {K : Type} [DecidableEq K] : List (K × Nat) → K → Nat → List (K × Nat)
  | [], k, i => [(k, i)]
  | (k', i') :: rest, k, i =>
    if k' = k then (k', max i' i) :: rest else (k', i') :: addL rest k i

/-- Fold of `BasisStamp::merge_from`: every entry of `b` is `add`ed into `a`. -/
def mergeL {K : Type} [DecidableEq K] (a b : List (K × Nat)) : List (K × Nat) :=
  b.foldl (fun acc e => addL acc e.1 e.2) a

/-- Check of `BasisStamp::prec_eq_wrt_roots` / `prec_eq_wrt_ancestors`: the
iteration of every listed key in `a` is at most its iteration in `b`. -/
def precEqL {K : Type} [DecidableEq K] (a b : List (K × Nat)) (ks : List K) : Bool :=
  ks.all fun k => latestL a k ≤ latestL b k

theorem latestL_nil {K : Type} [DecidableEq K] (k : K) : latestL ([] : List (K × Nat)) k = 0 := rfl

theorem latestL_cons {K : Type} [DecidableEq K] (k' : K) (i' : Nat) (rest : List (K × Nat))
    (k : K) : latestL ((k', i') :: rest) k = if k' = k then i' else latestL rest k := by
  by_cases h : k' = k <;> simp [latestL, getA, h]

theorem latestL_not_mem {K : Type} [DecidableEq K] (l : List (K × Nat)) (k : K)
    (h : k ∉ keysA l) : latestL l k = 0 := by
  induction l with
  | nil => rfl
  | cons e rest ih =>
    simp only [keysA, List.map_cons, List.mem_cons, not_or] at h
    rw [latestL_cons _ _ _ _ |>.trans (if_neg fun he => h.1 he.symm)]
    exact ih (by simpa [keysA] using h.2)

theorem latestL_addL {K : Type} [DecidableEq K] (l : List (K × Nat)) (k : K) (i : Nat)
    (key : K) :
    latestL (addL l k i) key = if k = key then max (latestL l key) i else latestL l key := by
  induction l with
  | nil =>
    by_cases h : k = key <;> simp [addL, latestL_cons, latestL_nil, h]
  | cons e rest ih =>
    cases e with
    | mk k' i' =>
      by_cases hk : k' = k
      · subst hk
        by_cases h : k' = key
        · subst h
          simp [addL, latestL_cons, Nat.max_comm]
        · simp [addL, latestL_cons, h]
      · by_cases h : k' = key
        · subst h
          simp only [addL, hk, if_false]
          rw [latestL_cons, latestL_cons, if_pos rfl, if_pos rfl]
          have hkne : ¬k = k' := fun hc => hk hc.symm
          simp [hkne]
        · simp only [addL, hk, if_false]
          rw [latestL_cons, latestL_cons, if_neg h, if_neg h, ih]

theorem keysA_addL {K : Type} [DecidableEq K] (l : List (K × Nat)) (k : K) (i : Nat) :
    keysA (addL l k i) = if k ∈ keysA l then keysA l else keysA l ++ [k] := by
  induction l with
  | nil => simp [addL, keysA]
  | cons e rest ih =>
    cases e with
    | mk k' i' =>
      by_cases hk : k' = k
      · subst hk
        simp [addL, keysA]
      · simp only [addL, hk, if_false, keysA, List.map_cons]
        have : k ∈ keysA ((k', i') :: rest) ↔ k ∈ keysA rest := by
          simp only [keysA, List.map_cons, List.mem_cons]
          exact or_iff_right (fun hc => hk hc.symm)
        have hnk : ¬k = k' := fun hc => hk hc.symm
        by_cases hm : k ∈ keysA rest
        · simp only [keysA] at hm ih ⊢
          simp [hm, ih, hnk]
        · simp only [keysA] at hm ih ⊢
          simp [hm, ih, hnk]

theorem nodup_keysA_addL {K : Type} [DecidableEq K] (l : List (K × Nat)) (k : K) (i : Nat)
    (h : (keysA l).Nodup) : (keysA (addL l k i)).Nodup := by
  rw [keysA_addL]
  by_cases hm : k ∈ keysA l
  · simpa [hm] using h
  · simp only [hm, if_false]
    simpa [List.nodup_append] using ⟨h, fun hc => hm hc⟩

theorem nodup_keysA_mergeL {K : Type} [DecidableEq K] (a b : List (K × Nat))
    (h : (keysA a).Nodup) : (keysA (mergeL a b)).Nodup := by
  induction b generalizing a with
  | nil => exact h
  | cons e rest ih => exact ih (addL a e.1 e.2) (nodup_keysA_addL _ _ _ h)

theorem latestL_mergeL {K : Type} [DecidableEq K] (a b : List (K × Nat))
    (hb : (keysA b).Nodup) (k : K) :
    latestL (mergeL a b) k = max (latestL a k) (latestL b k) := by
  induction b generalizing a with
  | nil => simp [mergeL, latestL_nil]
  | cons e rest ih =>
    cases e with
    | mk k0 i0 =>
      simp only [keysA, List.map_cons, List.nodup_cons] at hb
      have hrest : (keysA rest).Nodup := hb.2
      have hstep : mergeL a ((k0, i0) :: rest) = mergeL (addL a k0 i0) rest := rfl
      rw [hstep, ih _ hrest, latestL_addL, latestL_cons]
      by_cases h : k0 = k
      · subst h
        rw [if_pos rfl, if_pos rfl]
        rw [latestL_not_mem rest k0 (by simpa [keysA] using hb.1)]
        simp [Nat.max_assoc]
      · rw [if_neg h, if_neg h]

/-- Basis stamp of `message.rs`: `BasisStamp { root_iterations: HashMap<Address, Iteration> }`. -/
structure BasisStamp where
  root_iterations : List (Address × Iteration)
deriving DecidableEq, Repr

/-- Constructor `BasisStamp::empty` (`message.rs`). -/
def BasisStamp.empty : BasisStamp := ⟨[]⟩

/-- Check `BasisStamp::is_empty` (`message.rs`). -/
def BasisStamp.is_empty (s : BasisStamp) : Bool := s.root_iterations.isEmpty

/-- Lookup `BasisStamp::latest` (`message.rs`): `0` for an absent root. -/
def BasisStamp.latest (s : BasisStamp) (address : Address) : Iteration :=
  latestL s.root_iterations address

/-- Update `BasisStamp::add` (`message.rs`). -/
def BasisStamp.add (s : BasisStamp) (address : Address) (iteration : Iteration) : BasisStamp :=
  ⟨addL s.root_iterations address iteration⟩

/-- Pointwise-max union `BasisStamp::merge_from` (`message.rs`). -/
def BasisStamp.merge_from (s other : BasisStamp) : BasisStamp :=
  ⟨mergeL s.root_iterations other.root_iterations⟩

/-- Comparison `BasisStamp::prec_eq_wrt_ancestors` (`message.rs`): iterates the
keys of the ancestors map, here given as the list of those keys. -/
def BasisStamp.prec_eq_wrt_ancestors (s other : BasisStamp) (ancestors : List Address) : Bool :=
  precEqL s.root_iterations other.root_iterations ancestors

/-- Key list of a `BasisStamp`; unique for any stamp built by the source,
whose `root_iterations` is a `HashMap`. -/
def BasisStamp.keys (s : BasisStamp) : List Address := keysA s.root_iterations

/-- Pointwise equality of stamps: equality of finite maps once an absent root
is read as iteration `0` (the reading `latest` gives it). -/
def BasisStamp.equiv (a b : BasisStamp) : Prop :=
  ∀ address : Address, a.latest address = b.latest address

/-- Basis stamp of the node sources (`node.rs`, `node/reactive.rs`): the same
map keyed by `ReactiveAddress`, field `roots`. -/
structure RBasisStamp where
  roots : List (ReactiveAddress × Iteration)
deriving DecidableEq, Repr

/-- Constructor `BasisStamp::empty`, node-side stamp. -/
def RBasisStamp.empty : RBasisStamp := ⟨[]⟩

/-- Check `BasisStamp::is_empty`, node-side stamp. -/
def RBasisStamp.is_empty (s : RBasisStamp) : Bool := s.roots.isEmpty

/-- Lookup `BasisStamp::latest`, node-side stamp. -/
def RBasisStamp.latest (s : RBasisStamp) (address : ReactiveAddress) : Iteration :=
  latestL s.roots address

/-- Update `BasisStamp::add`, node-side stamp. -/
def RBasisStamp.add (s : RBasisStamp) (address : ReactiveAddress) (iteration : Iteration) :
    RBasisStamp :=
  ⟨addL s.roots address iteration⟩

/-- Pointwise-max union `BasisStamp::merge_from`, node-side stamp. -/
def RBasisStamp.merge_from (s other : RBasisStamp) : RBasisStamp :=
  ⟨mergeL s.roots other.roots⟩

/-- Comparison `BasisStamp::prec_eq_wrt_roots`, node-side stamp: the root set
argument (`HashSet<ReactiveAddress>` in the source) is its element list. -/
def RBasisStamp.prec_eq_wrt_roots (s other : RBasisStamp) (roots : List ReactiveAddress) :
    Bool :=
  precEqL s.roots other.roots roots

/-- Reset `BasisStamp::clear`, node-side stamp (`read_by.clear()` in
`node/reactive.rs`). -/
def RBasisStamp.clear (_s : RBasisStamp) : RBasisStamp := ⟨[]⟩

/-! Values and expressions, `expr.rs`. -/

/-- Value tree, `expr.rs` `enum Value { Tuple(Box<[Value]>), Integer(isize) }`. -/
inductive Value where
  | tuple (items : List Value)
  | integer (n : Int)

/-- Expression tree, `expr.rs` `enum Expr<Ident> { Tuple, Read, Value }`. -/
inductive Expr (ι : Type) where
  | tuple (items : List (Expr ι))
  | read (ident : ι)
  | value (v : Value)

/-- Collects values once every element of a tuple evaluated to `Expr::Value`,
as the `all_evaled` pass of `Expr::eval` (`expr/eval.rs`). -/
def exprValues {ι : Type} (items : List (Expr ι)) : Option (List Value) :=
  items.foldr
    (fun e acc =>
      match e, acc with
      | .value v, some vs => some (v :: vs)
      | _, _ => none)
    (some [])

/-- Evaluator `Expr::eval` (`expr/eval.rs`), with the read capability of the
evaluation context passed as a function; a `Read` that the context cannot
serve is left in place, and a tuple collapses to a value once every element
does. -/
def Expr.eval {ι : Type} (reads : ι → Option Value) : Expr ι → Expr ι
  | .tuple items =>
    let items' := items.attach.map fun e => e.1.eval reads
    match exprValues items' with
    | some vs => .value (.tuple vs)
    | none => .tuple items'
  | .read ident =>
    match reads ident with
    | some v => .value v
    | none => .read ident
  | .value v => .value v
decreasing_by
  have h := List.sizeOf_lt_of_mem e.2
  simp only [Expr.tuple.sizeOf_spec]
  omega

/-- Stamped value, `message.rs` `StampedValue { value, basis }` (node-side basis). -/
structure StampedValue where
  value : Value
  basis : RBasisStamp

/-- Per-input state of a definition, `node/reactive.rs` `struct Input`:
the baseline value (`None` before the first batch) and the FIFO queue of
pending updates. -/
structure Input where
  value : Option StampedValue
  updates : List StampedValue

/-- Definition state, `node/reactive.rs` `struct Definition`. -/
structure Definition where
  inputs : List (ReactiveAddress × Input)
  expr : Expr ReactiveAddress

/-- Working copy of one input in the batch search, `node/reactive.rs`
`struct BatchInput`. -/
structure BatchInput where
  roots : List ReactiveAddress
  basis : RBasisStamp
  remaining_updates : List StampedValue
  update_count : Nat

/-- Construction of the tentative per-input views at the top of each seed
iteration of `find_and_apply_batch` (`node/reactive.rs`): each input starts at
its baseline basis; `remaining_updates` and `update_count` are taken from the
input's queue exactly when the input is in `explored` — as the source's
`if explored.contains(address)` does — and are empty otherwise.  The closure
of the `roots` capability is passed as a function; its `expect` becomes an
error. -/
def buildBatchInputs (roots : ReactiveAddress → Option (List ReactiveAddress))
    (explored : List ReactiveAddress) :
    List (ReactiveAddress × Input) → Except String (List (ReactiveAddress × BatchInput))
  | [] => .ok []
  | (address, input) :: rest =>
    match roots address with
    | none => .error "input is locally inaccessible"
    | some rs =>
      match buildBatchInputs roots explored rest with
      | .error e => .error e
      | .ok tail =>
        .ok ((address,
          { roots := rs
            basis :=
              match input.value with
              | some v => v.basis
              | none => RBasisStamp.empty
            remaining_updates := if address ∈ explored then input.updates else []
            update_count := if address ∈ explored then input.updates.length else 0 }) :: tail)

/-- Inner loop `while !basis.prec_eq_wrt_roots(&input.basis, &input.roots)` of
`find_and_apply_batch` (`node/reactive.rs`): one input pops updates until it
satisfies the accumulated basis, growing the basis with every popped update;
`none` when its queue runs dry, which fails the current seed. -/
def catchUp (basis : RBasisStamp) (inp : BatchInput) (changed : Bool) :
    Option (RBasisStamp × BatchInput × Bool) :=
  if basis.prec_eq_wrt_roots inp.basis inp.roots then some (basis, inp, changed)
  else
    match h : inp.remaining_updates with
    | [] => none
    | u :: rest =>
      catchUp (basis.merge_from u.basis)
        { inp with basis := u.basis, remaining_updates := rest } true
termination_by inp.remaining_updates.length
decreasing_by
  simp [h]

/-- One `for (_, input) in inputs.iter_mut()` pass of the closure loop of
`find_and_apply_batch` (`node/reactive.rs`), threading the accumulated basis
and the `changed` flag. -/
def batchPass (basis : RBasisStamp) (changed : Bool) :
    List (ReactiveAddress × BatchInput) →
    Option (RBasisStamp × List (ReactiveAddress × BatchInput) × Bool)
  | [] => some (basis, [], changed)
  | (address, inp) :: rest =>
    (catchUp basis inp changed).bind fun r =>
      (batchPass r.1 r.2.2 rest).bind fun r' =>
        some (r'.1, (address, r.2.1) :: r'.2.1, r'.2.2)

/-- Total number of updates still unconsumed across the working inputs. -/
def totalRem (l : List (ReactiveAddress × BatchInput)) : Nat :=
  (l.map fun p => p.2.remaining_updates.length).sum

theorem catchUp_cases (basis : RBasisStamp) (inp : BatchInput) (changed : Bool)
    (b' : RBasisStamp) (inp' : BatchInput) (c' : Bool)
    (h : catchUp basis inp changed = some (b', inp', c')) :
    (inp' = inp ∧ c' = changed) ∨
      (c' = true ∧ inp'.remaining_updates.length < inp.remaining_updates.length) := by
  induction basis, inp, changed using catchUp.induct with
  | case1 basis inp changed hp =>
    rw [catchUp, if_pos hp] at h
    simp only [Option.some.injEq, Prod.mk.injEq] at h
    exact Or.inl ⟨h.2.1.symm, h.2.2.symm⟩
  | case2 basis inp changed hp hrem =>
    rw [catchUp, if_neg hp] at h
    split at h
    · exact absurd h (by simp)
    · rename_i u rest h'
      rw [hrem] at h'
      cases h'
  | case3 basis inp changed hp u rest hrem ih =>
    rw [catchUp, if_neg hp] at h
    split at h
    · rename_i h'
      rw [hrem] at h'
      cases h'
    · rename_i u' rest' h'
      rw [hrem] at h'
      injection h' with hu hrest
      subst hu hrest
      rcases ih h with ⟨heq, hc⟩ | ⟨hc, hlt⟩
      · refine Or.inr ⟨hc, ?_⟩
        rw [heq]
        simp [hrem]
      · refine Or.inr ⟨hc, ?_⟩
        refine Nat.lt_trans hlt ?_
        simp [hrem]

theorem batchPass_cases (l : List (ReactiveAddress × BatchInput)) :
    ∀ (basis : RBasisStamp) (changed : Bool) (b' : RBasisStamp)
      (l' : List (ReactiveAddress × BatchInput)) (c' : Bool),
      batchPass basis changed l = some (b', l', c') →
      (totalRem l' = totalRem l ∧ c' = changed) ∨
        (c' = true ∧ totalRem l' < totalRem l) := by
  induction l with
  | nil =>
    intro basis changed b' l' c' h
    simp only [batchPass] at h
    cases h
    exact Or.inl ⟨rfl, rfl⟩
  | cons e rest ih =>
    intro basis changed b' l' c' h
    obtain ⟨address, inp⟩ := e
    simp only [batchPass, Option.bind_eq_some] at h
    obtain ⟨⟨basis1, inp1, c1⟩, hcu, ⟨basis2, rest2, c2⟩, hbp, h⟩ := h
    simp only [Option.some.injEq, Prod.mk.injEq] at h
    obtain ⟨hb, hl, hc⟩ := h
    subst hb hl hc
    have h1 := catchUp_cases basis inp changed basis1 inp1 c1 hcu
    have h2 := ih basis1 c1 basis2 rest2 c2 hbp
    rcases h1 with ⟨hinp, hc1⟩ | ⟨hc1, hlt1⟩
    · rcases h2 with ⟨hrem, hc2⟩ | ⟨hc2, hlt2⟩
      · refine Or.inl ⟨?_, hc2.trans hc1⟩
        simp only [totalRem, List.map_cons, List.sum_cons] at *
        rw [hinp, hrem]
      · refine Or.inr ⟨hc2, ?_⟩
        have : inp1.remaining_updates.length = inp.remaining_updates.length := by
          rw [hinp]
        simp only [totalRem, List.map_cons, List.sum_cons] at *
        omega
    · rcases h2 with ⟨hrem, hc2⟩ | ⟨hc2, hlt2⟩
      · refine Or.inr ⟨hc2.trans hc1, ?_⟩
        simp only [totalRem, List.map_cons, List.sum_cons] at *
        omega
      · refine Or.inr ⟨hc2, ?_⟩
        simp only [totalRem, List.map_cons, List.sum_cons] at *
        omega

/-- Outer `while { ... changed }` closure loop of `find_and_apply_batch`
(`node/reactive.rs`): passes repeat until none of the inputs changed;
`none` propagates a failed seed. -/
def closeLoop (basis : RBasisStamp) (inputs : List (ReactiveAddress × BatchInput)) :
    Option (RBasisStamp × List (ReactiveAddress × BatchInput)) :=
  match hbp : batchPass basis false inputs with
  | none => none
  | some (basis', inputs', changed) =>
    if hc : changed then closeLoop basis' inputs' else some (basis', inputs')
termination_by totalRem inputs
decreasing_by
  rcases batchPass_cases inputs basis false basis' inputs' changed hbp with ⟨_, hc'⟩ | ⟨_, hlt⟩
  · exact absurd hc' (by simp [hc])
  · exact hlt

/-- Read capability the definition's `EvalContext` gives `Expr::eval`
(`node/reactive.rs`): the baseline value of the input, when present. -/
def inputReads (inputs : List (ReactiveAddress × Input)) (address : ReactiveAddress) :
    Option Value :=
  (getA inputs address).bind fun input => input.value.map fun v => v.value

/-- Outer `'seeds: for seed in self.inputs.keys()` loop of
`find_and_apply_batch` (`node/reactive.rs`).  Each seed builds fresh working
inputs, pops its own first remaining update (failing the seed when there is
none, exactly as the source does after initialising the seed's
`remaining_updates` from the `explored` check), closes the view to
consistency, and records the per-input consume counts with the accumulated
basis in `found`; a failed seed joins `explored` and the loop continues. -/
def seedLoop (roots : ReactiveAddress → Option (List ReactiveAddress))
    (inputsList : List (ReactiveAddress × Input)) :
    List ReactiveAddress → List ReactiveAddress →
    Option (List (ReactiveAddress × Nat) × RBasisStamp) →
    Except String (Option (List (ReactiveAddress × Nat) × RBasisStamp))
  | [], _explored, found => .ok found
  | seed :: seeds, explored, found =>
    match buildBatchInputs roots explored (entriesD inputsList) with
    | .error e => .error e
    | .ok built =>
      match getA built seed with
      | none => .error "seed is not among the working inputs"
      | some seedInput =>
        match seedInput.remaining_updates with
        | [] => seedLoop roots inputsList seeds (explored ++ [seed]) found
        | seedUpdate :: rest =>
          let built1 :=
            setA built seed
              { seedInput with remaining_updates := rest, basis := seedUpdate.basis }
          match closeLoop seedUpdate.basis built1 with
          | none => seedLoop roots inputsList seeds (explored ++ [seed]) found
          | some (basis, closed) =>
            let update_counts :=
              closed.map fun p => (p.1, p.2.update_count - p.2.remaining_updates.length)
            seedLoop roots inputsList seeds explored (some (update_counts, basis))

/-- Apply phase of `find_and_apply_batch` (`node/reactive.rs`): drain the
consumed updates of every input (the last drained update becomes the new
baseline), merge the baseline basis of untouched inputs into the batch basis,
and flag `complete = false` for an untouched input with no baseline.
`Vec::drain` panics when the count exceeds the queue length. -/
def applyCounts :
    List (ReactiveAddress × Nat) → List (ReactiveAddress × Input) → RBasisStamp → Bool →
    Except String (List (ReactiveAddress × Input) × RBasisStamp × Bool)
  | [], inputs, basis, complete => .ok (inputs, basis, complete)
  | (address, update_count) :: rest, inputs, basis, complete =>
    match getA inputs address with
    | none => .error "input of the batch is missing"
    | some input =>
      if input.updates.length < update_count then .error "drain out of range"
      else
        match (input.updates.take update_count).getLast? with
        | some value =>
          applyCounts rest
            (setA inputs address
              { input with updates := input.updates.drop update_count, value := some value })
            basis complete
        | none =>
          match input.value with
          | some v => applyCounts rest inputs (basis.merge_from v.basis) complete
          | none => applyCounts rest inputs basis false

/-- Batch search and application, `Definition::find_and_apply_batch`
(`node/reactive.rs` lines 184-305).  Returns the produced stamped value (if
any) together with the definition state after the call; panics become
errors. -/
def Definition.find_and_apply_batch (roots : ReactiveAddress → Option (List ReactiveAddress))
    (d : Definition) : Except String (Option StampedValue × Definition) :=
  match seedLoop roots d.inputs (keysA (entriesD d.inputs)) [] none with
  | .error e => .error e
  | .ok none => .ok (none, d)
  | .ok (some (update_counts, basis)) =>
    match applyCounts update_counts d.inputs basis true with
    | .error e => .error e
    | .ok (inputs', basis', complete) =>
      let d' : Definition := { d with inputs := inputs' }
      if complete then
        match d.expr.eval (inputReads inputs') with
        | .value v => .ok (some { value := v, basis := basis' }, d')
        | _ => .error "expr did not fully evaluate"
      else .ok (none, d')

theorem buildBatchInputs_getA (roots : ReactiveAddress → Option (List ReactiveAddress))
    (explored : List ReactiveAddress) (l : List (ReactiveAddress × Input))
    (built : List (ReactiveAddress × BatchInput))
    (hb : buildBatchInputs roots explored l = .ok built)
    (k : ReactiveAddress) (hk : k ∈ keysA l) (hex : k ∉ explored) :
    ∃ bi, getA built k = some bi ∧ bi.remaining_updates = [] := by
  induction l generalizing built with
  | nil => simp [keysA] at hk
  | cons e rest ih =>
    obtain ⟨address, input⟩ := e
    simp only [buildBatchInputs] at hb
    cases hr : roots address with
    | none => rw [hr] at hb; cases hb
    | some rs =>
      rw [hr] at hb
      cases htail : buildBatchInputs roots explored rest with
      | error e => rw [htail] at hb; cases hb
      | ok tail =>
        rw [htail] at hb
        cases hb
        by_cases hak : address = k
        · subst hak
          refine ⟨{ roots := rs,
                    basis :=
                      match input.value with
                      | some v => v.basis
                      | none => RBasisStamp.empty,
                    remaining_updates := if address ∈ explored then input.updates else [],
                    update_count := if address ∈ explored then input.updates.length else 0 },
                  by simp [getA], by simp [hex]⟩
        · have hk' : k ∈ keysA rest := by
            simp only [keysA, List.map_cons, List.mem_cons] at hk
            rcases hk with hk | hk
            · exact absurd hk.symm hak
            · exact hk
          obtain ⟨bi, hget, hbi⟩ := ih tail htail hk'
          refine ⟨bi, ?_, hbi⟩
          simpa [getA, hak] using hget

theorem seedLoop_no_batch (roots : ReactiveAddress → Option (List ReactiveAddress))
    (inputsList : List (ReactiveAddress × Input)) :
    ∀ (seeds explored : List ReactiveAddress)
      (found : Option (List (ReactiveAddress × Nat) × RBasisStamp)),
      seeds.Nodup → (∀ s ∈ seeds, s ∉ explored) →
      (∀ s ∈ seeds, s ∈ keysA (entriesD inputsList)) →
      seedLoop roots inputsList seeds explored found = .ok found ∨
        ∃ e, seedLoop roots inputsList seeds explored found = .error e := by
  intro seeds
  induction seeds with
  | nil => intro explored found _ _ _; exact Or.inl rfl
  | cons seed seeds ih =>
    intro explored found hnd hex hkeys
    rw [seedLoop]
    cases hb : buildBatchInputs roots explored (entriesD inputsList) with
    | error e => exact Or.inr ⟨e, rfl⟩
    | ok built =>
      obtain ⟨bi, hget, hbi⟩ :=
        buildBatchInputs_getA roots explored _ built hb seed
          (hkeys seed (List.mem_cons_self _ _)) (hex seed (List.mem_cons_self _ _))
      simp only [hget, hbi]
      refine ih (explored ++ [seed]) found (List.Nodup.of_cons hnd) ?_ ?_
      · intro s hs
        simp only [List.mem_append, List.mem_singleton, not_or]
        refine ⟨hex s (List.mem_cons_of_mem _ hs), ?_⟩
        intro hseq
        subst hseq
        exact (List.nodup_cons.mp hnd).1 hs
      · intro s hs
        exact hkeys s (List.mem_cons_of_mem _ hs)

theorem find_and_apply_batch_no_value (roots : ReactiveAddress → Option (List ReactiveAddress))
    (d : Definition) :
    d.find_and_apply_batch roots = .ok (none, d) ∨
      ∃ e, d.find_and_apply_batch roots = .error e := by
  have h :=
    seedLoop_no_batch roots d.inputs (keysA (entriesD d.inputs)) [] none
      (keysA_entriesD_nodup d.inputs) (by simp) (fun s hs => hs)
  rcases h with h | ⟨e, h⟩
  · exact Or.inl (by rw [Definition.find_and_apply_batch, h])
  · exact Or.inr ⟨e, by rw [Definition.find_and_apply_batch, h]⟩

theorem getA_setA_self {K V : Type} [DecidableEq K] (l : List (K × V)) (k : K) (v : V) :
    getA (setA l k v) k = some v := by
  induction l with
  | nil => simp [setA, getA]
  | cons e rest ih =>
    obtain ⟨k', v'⟩ := e
    by_cases h : k' = k
    · simp [setA, getA, h]
    · simp [setA, getA, h, ih]

theorem getA_setA_ne {K V : Type} [DecidableEq K] (l : List (K × V)) (k k' : K) (v : V)
    (h : ¬k' = k) : getA (setA l k v) k' = getA l k' := by
  have hnk : ¬k = k' := fun hc => h hc.symm
  induction l with
  | nil => simp [setA, getA, hnk]
  | cons e rest ih =>
    obtain ⟨k0, v0⟩ := e
    by_cases h0 : k0 = k
    · subst h0
      simp [setA, getA, hnk]
    · simp only [setA, h0, if_false, getA]
      by_cases h1 : k0 = k' <;> simp [h1, ih]

/-! Messages of the node protocol (`node.rs`, with the router's
`Unreachable` wrapper from `actor.rs`).  Only the constructors the embedded
handlers touch are included. -/

/-- Message taxonomy used by the node and router embeddings. -/
inductive Message where
  | unreachable (message : Message)
  | propagate (sender : ReactiveAddress) (value : StampedValue)
  | lock (txid : TxId) (kind : LockKind)
  | lockGranted (txid : TxId) (address : Address)
  | preempt (txid : TxId)
  | abort (txid : TxId)
  | read (txid : TxId) (reactive : ReactiveId) (basis : RBasisStamp)
  | readResult (txid : TxId) (reactive : ReactiveAddress) (value : StampedValue)
  | write (txid : TxId) (reactive : ReactiveId) (value : Value)

/-- Outgoing message paired with its destination (`ctx.send(target, message)`). -/
abbrev Send := Address × Message

/-! Held-lock state, `node/held_locks.rs`. -/

/-- Read slot of a shared holder, `node/held_locks.rs` `struct Read`:
`pending` is the requested lower bound, `complete` accumulates the bases of
delivered results (empty = no result delivered yet). -/
structure Read where
  pending : RBasisStamp
  complete : RBasisStamp

/-- Shared-lock state, `node/held_locks.rs` `struct SharedLockState`. -/
structure SharedLockState where
  reads : List (ReactiveId × Read)

/-- Value of `SharedLockState::default()`. -/
def SharedLockState.default : SharedLockState := ⟨[]⟩

/-- Reactive configuration (`ReactiveConfiguration` as matched by
`node/reactive.rs`): a variable with a stamped value, or a definition
with an expression over reactive addresses. -/
inductive ReactiveConfiguration where
  | variable (value : StampedValue)
  | definition (expr : Expr ReactiveAddress)

/-- Exclusive-lock state, `node/held_locks.rs` `struct ExclusiveLockState`. -/
structure ExclusiveLockState where
  writes : List (ReactiveId × Value)
  reactives : List (ReactiveId × Option ReactiveConfiguration)
  exports : List (ReactiveId × List Address)

/-- Value of `ExclusiveLockState::default()`. -/
def ExclusiveLockState.default : ExclusiveLockState := ⟨[], [], []⟩

/-- Held-lock table, `node/held_locks.rs` `enum HeldLocks`: no holder, a
map of shared holders ordered by `TxId`, or a single exclusive holder. -/
inductive HeldLocks where
  | none
  | shared (held : List (TxId × SharedLockState))
  | exclusive (txid : TxId) (sharedState : SharedLockState)
      (exclusiveState : ExclusiveLockState)

/-- Lookup of `HeldLocks::shared` / `shared_mut` (`node/held_locks.rs`):
the exclusive holder's shared state is visible through it too. -/
def HeldLocks.sharedOf : HeldLocks → TxId → Option SharedLockState
  | .none, _ => Option.none
  | .shared held, txid => getA held txid
  | .exclusive held_txid s _, txid => if held_txid = txid then some s else Option.none

/-- Write-back half of `HeldLocks::shared_mut`: replace the shared state the
lookup found (the table is unchanged when the holder is absent). -/
def HeldLocks.setShared : HeldLocks → TxId → SharedLockState → HeldLocks
  | .none, _, _ => .none
  | .shared held, txid, s => .shared (setA held txid s)
  | .exclusive held_txid s0 e, txid, s =>
    if held_txid = txid then .exclusive held_txid s e else .exclusive held_txid s0 e

/-- Lookup of `HeldLocks::exclusive` / `exclusive_mut` (`node/held_locks.rs`). -/
def HeldLocks.exclusiveOf : HeldLocks → TxId → Option ExclusiveLockState
  | .exclusive held_txid _ e, txid => if held_txid = txid then some e else Option.none
  | _, _ => Option.none

/-! Reactive, `node/reactive.rs`. -/

/-- Reactive state, `node/reactive.rs` `struct Reactive`. -/
structure Reactive where
  definition : Option Definition
  value : Option StampedValue
  read_by : RBasisStamp
  changed : Bool

/-- Update intake `Reactive::add_update` (`node/reactive.rs`): push onto the
matching input's queue of the definition; a variable or an unknown input
panics. -/
def Reactive.add_update (r : Reactive) (sender : ReactiveAddress) (v : StampedValue) :
    Except String Reactive :=
  match r.definition with
  | some d =>
    match getA d.inputs sender with
    | some input =>
      let input' : Input := { input with updates := input.updates ++ [v] }
      let d' : Definition := { d with inputs := setA d.inputs sender input' }
      .ok { r with definition := some d' }
    | none => .error "received update from unknown input"
  | none => .error "attempted to add update to variable"

/-- Tail of `Reactive::next_value` (`node/reactive.rs`): run the definition's
batch search and store a produced value. -/
def Reactive.batch_step (roots : ReactiveAddress → Option (List ReactiveAddress))
    (r : Reactive) : Except String (Option StampedValue × Reactive) :=
  match r.definition with
  | some d =>
    match d.find_and_apply_batch roots with
    | .error e => .error e
    | .ok (some nv, d') => .ok (some nv, { r with definition := some d', value := some nv })
    | .ok (none, d') => .ok (none, { r with definition := some d' })
  | none => .ok (none, r)

/-- Poll `Reactive::next_value` (`node/reactive.rs`): a freshly `changed`
reactive yields its current value once (clearing the flag); otherwise the
definition's batch search is consulted. -/
def Reactive.next_value (roots : ReactiveAddress → Option (List ReactiveAddress))
    (r : Reactive) : Except String (Option StampedValue × Reactive) :=
  if r.changed then
    let r1 := { r with changed := false }
    match r.value with
    | some v => .ok (some v, r1)
    | none => Reactive.batch_step roots r1
  else Reactive.batch_step roots r

theorem batch_step_not_some (roots : ReactiveAddress → Option (List ReactiveAddress))
    (r : Reactive) (v : StampedValue) (r' : Reactive) :
    Reactive.batch_step roots r ≠ .ok (some v, r') := by
  intro h
  rw [Reactive.batch_step] at h
  cases hd : r.definition with
  | none => simp [hd] at h
  | some d =>
    simp only [hd] at h
    rcases find_and_apply_batch_no_value roots d with hfb | ⟨e, hfb⟩
    · simp [hfb] at h
    · simp [hfb] at h

theorem next_value_some (roots : ReactiveAddress → Option (List ReactiveAddress))
    (r : Reactive) (v : StampedValue) (r' : Reactive)
    (h : r.next_value roots = .ok (some v, r')) :
    r.changed = true ∧ r' = { r with changed := false } := by
  rw [Reactive.next_value] at h
  by_cases hc : r.changed
  · rw [if_pos hc] at h
    cases hv : r.value with
    | none =>
      rw [hv] at h
      exact absurd h (batch_step_not_some roots _ v r')
    | some v0 =>
      rw [hv] at h
      simp only [Except.ok.injEq, Prod.mk.injEq, Option.some.injEq] at h
      exact ⟨hc, h.2.symm⟩
  · rw [if_neg hc] at h
    exact absurd h (batch_step_not_some roots _ v r')

/-! Node actor, `node.rs`. -/

/-- Import record, `node.rs` `struct Import`. -/
structure Import where
  roots : List ReactiveAddress
  importers : List ReactiveId

/-- Export record, `node.rs` `struct Export`. -/
structure Export where
  roots : List ReactiveAddress
  importers : List Address

/-- Node state, `node.rs` `struct Node`.  `queued` is a `BTreeMap` kept in
ascending `TxId` order; `preempted` is a `HashSet`. -/
structure Node where
  queued : List (TxId × LockKind)
  held : HeldLocks
  preempted : List TxId
  imports : List (ReactiveAddress × Import)
  reactives : List (ReactiveId × Reactive)
  iterations : List (ReactiveId × Iteration)
  exports : List (ReactiveId × Export)
  subscriptions : List (ReactiveId × List ReactiveId)
  roots : List (ReactiveId × List ReactiveAddress)
  topo : List ReactiveId

/-- Constructor `Node::new` (`node.rs`). -/
def Node.new : Node :=
  { queued := [], held := .none, preempted := [], imports := [], reactives := []
    iterations := [], exports := [], subscriptions := [], roots := [], topo := [] }

/-- Preemption request `Node::preempt` (`node.rs` lines 361-365): send
`Preempt{txid}` to the transaction's originating address only when inserting
`txid` into the `preempted` set for the first time. -/
def Node.preempt (preempted : List TxId) (txid : TxId) : List TxId × List Send :=
  if txid ∈ preempted then (preempted, [])
  else (preempted ++ [txid], [(txid.address, .preempt txid)])

/-- Fold of consecutive `Node::preempt` calls, used for the shared-holder
sweep in `grant_locks` and to state the at-most-once property. -/
def preemptAll (preempted : List TxId) (msgs : List Send) :
    List TxId → List TxId × List Send
  | [] => (preempted, msgs)
  | t :: rest =>
    let (p', m') := Node.preempt preempted t
    preemptAll p' (msgs ++ m') rest

/-- Ordered insertion into a `BTreeMap<TxId, V>` held as an ascending list. -/
def btreeInsertB {V : Type} : List (TxId × V) → TxId → V → List (TxId × V)
  | [], txid, v => [(txid, v)]
  | (t, w) :: rest, txid, v =>
    if TxId.lt txid t then (txid, v) :: (t, w) :: rest
    else (t, w) :: btreeInsertB rest txid v

/-- Loop body of `Node::grant_locks` (`node.rs` lines 70-137) over the queued
locks in ascending `TxId` order.  From `None` any lock is granted; from
`Shared` further shared locks are granted, and an exclusive candidate
preempts every held shared lock whose `TxId` is not smaller (the
reverse-iteration `break` of the source) and stops the scan; from
`Exclusive` nothing is granted and — as the source is written, against its
own comment — when the candidate is older it is the *candidate* `txid`
that is passed to `Node::preempt`, not the exclusive holder. -/
def grantLoop (held : HeldLocks) (preempted : List TxId) (msgs : List Send)
    (granted : List (TxId × LockKind)) :
    List (TxId × LockKind) → HeldLocks × List TxId × List Send × List (TxId × LockKind)
  | [] => (held, preempted, msgs, granted)
  | (txid, kind) :: rest =>
    match held with
    | .none =>
      match kind with
      | .shared =>
        grantLoop (.shared [(txid, SharedLockState.default)]) preempted msgs
          (granted ++ [(txid, kind)]) rest
      | .exclusive =>
        grantLoop (.exclusive txid SharedLockState.default ExclusiveLockState.default)
          preempted msgs (granted ++ [(txid, kind)]) rest
    | .shared heldMap =>
      match kind with
      | .shared =>
        grantLoop (.shared (btreeInsertB heldMap txid SharedLockState.default)) preempted
          msgs (granted ++ [(txid, kind)]) rest
      | .exclusive =>
        let younger := (heldMap.reverse.takeWhile fun p => !TxId.lt p.1 txid).map Prod.fst
        let (preempted', msgs') := preemptAll preempted msgs younger
        (.shared heldMap, preempted', msgs', granted)
    | .exclusive held_txid s e =>
      if TxId.lt txid held_txid then
        let (preempted', sent) := Node.preempt preempted txid
        (.exclusive held_txid s e, preempted', msgs ++ sent, granted)
      else (.exclusive held_txid s e, preempted, msgs, granted)

/-- Grant pass `Node::grant_locks` (`node.rs`): walk the queue, then remove
every granted `TxId` from `queued` and send it `LockGranted`. -/
def Node.grant_locks (me : Address) (st : Node) : Node × List Send :=
  let r := grantLoop st.held st.preempted [] [] st.queued
  let queued' := r.2.2.2.foldl (fun q p => removeA q p.1) st.queued
  let grantMsgs := r.2.2.2.map fun p => (p.1.address, Message.lockGranted p.1 me)
  ({ st with held := r.1, preempted := r.2.1, queued := queued' }, r.2.2.1 ++ grantMsgs)

/-- Handler of `Message::Lock` (`node.rs` lines 478-486): a `txid` still in
`queued` is a fatal double request; otherwise it is enqueued and
`grant_locks` runs. -/
def Node.handle_lock (me : Address) (st : Node) (txid : TxId) (kind : LockKind) :
    Except String (Node × List Send) :=
  if txid ∈ keysA st.queued then .error "lock was double-requested"
  else
    .ok (Node.grant_locks me { st with queued := btreeInsertB st.queued txid kind })

/-- Handler of `Message::Abort` (`node.rs`): remove the holder from `held`
(fatal when it holds nothing), then `grant_locks`. -/
def Node.handle_abort (me : Address) (st : Node) (txid : TxId) :
    Except String (Node × List Send) :=
  match st.held with
  | .none => .error "abort of unheld lock requested"
  | .shared held =>
    if txid ∈ keysA held then
      let held' := removeA held txid
      let st1 := { st with held := if held'.isEmpty then HeldLocks.none else .shared held' }
      .ok (st1.grant_locks me)
    else .error "abort of unheld lock requested"
  | .exclusive held_txid _ _ =>
    if held_txid = txid then .ok (Node.grant_locks me { st with held := .none })
    else .error "abort of unheld lock requested"

/-- Handler of `Message::Read` (`node.rs` lines 627-675).  The transaction
must hold a shared (or exclusive) lock and the reactive must exist; a
second read while one is still outstanding is fatal.  With a value whose
basis dominates the request basis on the reactive's roots the node replies
`ReadResult` at once and merges the value's basis into the read's
`complete` stamp; otherwise the request basis is recorded in `pending`. -/
def Node.handle_read (me : Address) (st : Node) (txid : TxId) (reactive : ReactiveId)
    (basis : RBasisStamp) : Except String (Node × List Send) :=
  match st.held.sharedOf txid with
  | none => .error "attempted to read without a lock"
  | some lockState =>
    match getA st.reactives reactive with
    | none => .error "attempted to read reactive that could not be found"
    | some r =>
      let entry := getA lockState.reads reactive
      let stillPending : Bool :=
        match entry with
        | some e => e.complete.is_empty || !e.pending.is_empty
        | none => false
      if stillPending then
        .error "attempted to read while another read is still pending"
      else
        let read := entry.getD { pending := RBasisStamp.empty, complete := RBasisStamp.empty }
        match r.value with
        | some v =>
          match getA st.roots reactive with
          | none => .error "roots of the reactive are missing"
          | some roots =>
            if basis.prec_eq_wrt_roots v.basis roots then
              let read' := { read with complete := read.complete.merge_from v.basis }
              let lockState' := { lockState with reads := setA lockState.reads reactive read' }
              .ok ({ st with held := st.held.setShared txid lockState' },
                [(txid.address, .readResult txid ⟨me, reactive⟩ v)])
            else
              let read' := { read with pending := basis }
              let lockState' := { lockState with reads := setA lockState.reads reactive read' }
              .ok ({ st with held := st.held.setShared txid lockState' }, [])
        | none =>
          let read' := { read with pending := basis }
          let lockState' := { lockState with reads := setA lockState.reads reactive read' }
          .ok ({ st with held := st.held.setShared txid lockState' }, [])

/-- Inner loop of `Node::grant_reads` (`node.rs` lines 441-472) over one
holder's reads: a read that has no completed result yet (or has a newer
pending bound) is answered as soon as the reactive holds a value whose basis
dominates the pending bound on the reactive's roots. -/
def grantReadsLoop (me : Address) (reactives : List (ReactiveId × Reactive))
    (rootsMap : List (ReactiveId × List ReactiveAddress)) (txid : TxId) :
    List (ReactiveId × Read) → Except String (List (ReactiveId × Read) × List Send)
  | [] => .ok ([], [])
  | (id, read) :: rest => do
    let (entry, sends) ←
      if read.complete.is_empty ∨ ¬read.pending.is_empty then
        match getA reactives id with
        | none => .error "reactive of a recorded read is missing"
        | some r =>
          match r.value with
          | some v =>
            match getA rootsMap id with
            | none => .error "roots of a recorded read are missing"
            | some roots =>
              if read.pending.prec_eq_wrt_roots v.basis roots then
                .ok ((id, { read with complete := read.complete.merge_from v.basis }),
                  [(txid.address, Message.readResult txid ⟨me, id⟩ v)])
              else .ok ((id, read), [])
          | none => .ok ((id, read), [])
      else .ok ((id, read), [])
    let (rest', more) ← grantReadsLoop me reactives rootsMap txid rest
    .ok (entry :: rest', sends ++ more)

/-- Sweep of `HeldLocks::visit_shared` inside `Node::grant_reads` over the
shared holders in `TxId` order. -/
def grantReadsShared (me : Address) (reactives : List (ReactiveId × Reactive))
    (rootsMap : List (ReactiveId × List ReactiveAddress)) :
    List (TxId × SharedLockState) →
    Except String (List (TxId × SharedLockState) × List Send)
  | [] => .ok ([], [])
  | (txid, s) :: rest => do
    let (reads', sends) ← grantReadsLoop me reactives rootsMap txid s.reads
    let (rest', more) ← grantReadsShared me reactives rootsMap rest
    .ok ((txid, { s with reads := reads' }) :: rest', sends ++ more)

/-- Pending-read wakeup `Node::grant_reads` (`node.rs`). -/
def Node.grant_reads (me : Address) (st : Node) : Except String (Node × List Send) :=
  match st.held with
  | .none => .ok (st, [])
  | .shared held => do
    let (held', sends) ← grantReadsShared me st.reactives st.roots held
    .ok ({ st with held := .shared held' }, sends)
  | .exclusive held_txid s e => do
    let (reads', sends) ← grantReadsLoop me st.reactives st.roots held_txid s.reads
    .ok ({ st with held := .exclusive held_txid { s with reads := reads' } e }, sends)

/-- Closure `roots` built inside `Node::propagate` (`node.rs`): local
reactives resolve through the node's `roots` map, remote ones through
the import table. -/
def rootsFn (st : Node) (me : Address) : ReactiveAddress → Option (List ReactiveAddress) :=
  fun address =>
    if address.address = me then getA st.roots address.id
    else (getA st.imports address).map fun i => i.roots

/-- Subscriber fan-out inside the `while` body of `Node::propagate`
(`node.rs`): every local subscriber's reactive receives the produced value
as an update. -/
def fanOutSubs (me : Address) (id : ReactiveId) (v : StampedValue) :
    Node → List ReactiveId → Except String Node
  | st, [] => .ok st
  | st, sub :: rest =>
    match getA st.reactives sub with
    | none => .error "subscriber reactive is missing"
    | some r =>
      match r.add_update ⟨me, id⟩ v with
      | .error e => .error e
      | .ok r' => fanOutSubs me id v { st with reactives := setA st.reactives sub r' } rest

/-- Export sends inside the `while` body of `Node::propagate` (`node.rs`):
basis entries of local-only (unexported) reactives are filtered out and the
value goes to every importer of the export record. -/
def exportSends (st : Node) (me : Address) (id : ReactiveId) (v : StampedValue) :
    List Send :=
  let filtered : StampedValue :=
    { value := v.value
      basis := ⟨v.basis.roots.filter fun p =>
        !(p.1.address = me : Bool) || (getA st.exports p.1.id).isSome⟩ }
  match getA st.exports id with
  | some ex => ex.importers.map fun addr => (addr, Message.propagate ⟨me, id⟩ filtered)
  | none => []

/-- Changed flag of one reactive of the node, the measure of the
`while let Some(value) = ... next_value(...)` loop. -/
def changedOf (st : Node) (id : ReactiveId) : Bool :=
  match getA st.reactives id with
  | some r => r.changed
  | none => false

theorem add_update_changed (r : Reactive) (s : ReactiveAddress) (v : StampedValue)
    (r' : Reactive) (h : r.add_update s v = .ok r') : r'.changed = r.changed := by
  rw [Reactive.add_update] at h
  cases hd : r.definition with
  | none => simp [hd] at h
  | some d =>
    simp only [hd] at h
    cases hg : getA d.inputs s with
    | none => simp [hg] at h
    | some input =>
      simp only [hg, Except.ok.injEq] at h
      rw [← h]

theorem fanOutSubs_changed (me : Address) (id : ReactiveId) (v : StampedValue) :
    ∀ (subs : List ReactiveId) (st st' : Node),
      fanOutSubs me id v st subs = .ok st' → ∀ i, changedOf st' i = changedOf st i := by
  intro subs
  induction subs with
  | nil =>
    intro st st' h i
    simp only [fanOutSubs, Except.ok.injEq] at h
    rw [h]
  | cons sub rest ih =>
    intro st st' h i
    simp only [fanOutSubs] at h
    cases hg : getA st.reactives sub with
    | none => simp [hg] at h
    | some r =>
      simp only [hg] at h
      cases hau : r.add_update ⟨me, id⟩ v with
      | error e => simp [hau] at h
      | ok r' =>
        simp only [hau] at h
        have hstep := ih _ _ h i
        rw [hstep]
        show changedOf { st with reactives := setA st.reactives sub r' } i = changedOf st i
        by_cases hi : sub = i
        · subst hi
          simp only [changedOf, getA_setA_self, hg]
          exact add_update_changed r _ v r' hau
        · simp only [changedOf]
          rw [getA_setA_ne st.reactives sub i r' (fun hc => hi hc.symm)]

/-- One reactive's `while let Some(value) = ...next_value(roots)` loop inside
`Node::propagate` (`node.rs`): every produced value is fanned out to local
subscribers and to importing nodes; the loop ends when `next_value` yields
nothing.  It terminates because a value is only yielded by a freshly
`changed` reactive (the batch search never produces one, see
`find_and_apply_batch_no_value`), and the flag is cleared by the yield. -/
def propagateOne (me : Address) (id : ReactiveId) (st : Node) :
    Except String (Node × List Send) :=
  match hr : getA st.reactives id with
  | none => .error "reactive of the topological order is missing"
  | some r =>
    match hnv : r.next_value (rootsFn st me) with
    | .error e => .error e
    | .ok (none, r') => .ok ({ st with reactives := setA st.reactives id r' }, [])
    | .ok (some v, r') =>
      let st1 : Node := { st with reactives := setA st.reactives id r' }
      match getA st1.subscriptions id with
      | none => .error "subscriptions of the reactive are missing"
      | some subs =>
        match hfo : fanOutSubs me id v st1 subs with
        | .error e => .error e
        | .ok st2 =>
          let sends := exportSends st2 me id v
          match propagateOne me id st2 with
          | .error e => .error e
          | .ok (st3, more) => .ok (st3, sends ++ more)
termination_by (if changedOf st id then 1 else 0)
decreasing_by
  have hsome := next_value_some (rootsFn st me) r v r' hnv
  have h1 : changedOf st id = true := by
    simp [changedOf, hr, hsome.1]
  have h2 : changedOf st2 id = false := by
    have := fanOutSubs_changed me id v subs _ st2 hfo id
    rw [this]
    simp [changedOf, getA_setA_self, hsome.2]
  simp [h1, h2]

/-- Walk over the topological order in `Node::propagate` (`node.rs`): ids
before the first modified one are skipped; from there every reactive is
polled. -/
def propagateTopo (me : Address) (modified : List ReactiveId) :
    Node → Bool → List ReactiveId → Except String (Node × List Send)
  | st, _found, [] => .ok (st, [])
  | st, found, id :: rest =>
    if found = false ∧ id ∉ modified then propagateTopo me modified st false rest
    else do
      let (st', sends) ← propagateOne me id st
      let (st'', more) ← propagateTopo me modified st' true rest
      .ok (st'', sends ++ more)

/-- Propagation pass `Node::propagate` (`node.rs`): push new values down the
topological order, then wake pending reads. -/
def Node.propagate (me : Address) (st : Node) (modified : List ReactiveId) :
    Except String (Node × List Send) := do
  let (st1, sends) ← propagateTopo me modified st false st.topo
  let (st2, more) ← st1.grant_reads me
  .ok (st2, sends ++ more)

/-- Update intake over all importers in the `Message::Propagate` handler
(`node.rs`). -/
def addUpdateAll (sender : ReactiveAddress) (value : StampedValue) :
    Node → List ReactiveId → Except String Node
  | st, [] => .ok st
  | st, id :: rest =>
    match getA st.reactives id with
    | none => .error "importer reactive is missing"
    | some r =>
      match r.add_update sender value with
      | .error e => .error e
      | .ok r' => addUpdateAll sender value { st with reactives := setA st.reactives id r' } rest

/-- Handler of `Message::Propagate` (`node.rs` lines 714-727): a sender that
is not a registered import returns early with no effect; otherwise
every importer's reactive takes the update and the node propagates from
those importers. -/
def Node.handle_propagate (me : Address) (st : Node) (sender : ReactiveAddress)
    (value : StampedValue) : Except String (Node × List Send) :=
  match getA st.imports sender with
  | none => .ok (st, [])
  | some imp => do
    let st1 ← addUpdateAll sender value st imp.importers
    st1.propagate me imp.importers

/-! Router, `actor.rs` (`System::run`) and `router.rs` (`Router::run`): both
carry the identical dead-target rule. -/

/-- Discriminant `matches!(message, Message::Unreachable { .. })` of the run
loop. -/
def isUnreachable : Message → Bool
  | .unreachable _ => true
  | _ => false

/-- Queued message of the router, `actor.rs` `struct QueuedMessage`. -/
structure QueuedMessage where
  sender : Address
  target : Address
  message : Message

/-- Message the run loop synthesises for a dead target (`actor.rs`
`System::run`): `Unreachable{message}` from the dead target back to the
original sender. -/
def synthUnreachable (qm : QueuedMessage) : QueuedMessage :=
  { sender := qm.target, target := qm.sender, message := .unreachable qm.message }

/-- Weight of a message for the termination of the drain: a synthesised
`Unreachable` is consumed without producing anything further. -/
def msgWeight (m : Message) : Nat := if isUnreachable m then 1 else 2

/-- Total weight of a queue. -/
def queueWeight (q : List QueuedMessage) : Nat :=
  (q.map fun qm => msgWeight qm.message).sum

/-- Run loop `System::run` (`actor.rs` lines 70-106) in the configuration
where every addressed actor has retired: each popped message either is an
`Unreachable` and is dropped, or synthesises `Unreachable{message}` back to
its sender, *push_front* so it is the very next message handled.  The
returned list is the sequence of synthesised messages, in synthesis order;
the loop runs until the queue drains. -/
def runRetired : List QueuedMessage → List QueuedMessage
  | [] => []
  | qm :: rest =>
    if isUnreachable qm.message then runRetired rest
    else synthUnreachable qm :: runRetired (synthUnreachable qm :: rest)
termination_by q => queueWeight q
decreasing_by
  · rename_i h
    simp [queueWeight, msgWeight, h]
  · rename_i h
    have h2 : isUnreachable (synthUnreachable qm).message = true := rfl
    simp [queueWeight, msgWeight, h, h2]

theorem runRetired_characterization (q : List QueuedMessage) :
    runRetired q = (q.filter fun qm => !isUnreachable qm.message).map synthUnreachable := by
  induction q using runRetired.induct with
  | case1 => rw [runRetired]; rfl
  | case2 qm rest h ih =>
    rw [runRetired, if_pos h]
    rw [ih, List.filter_cons_of_neg (by simp [h])]
  | case3 qm rest h ih =>
    rw [runRetired, if_neg h]
    rw [ih]
    have hsynth : isUnreachable (synthUnreachable qm).message = true := rfl
    rw [List.filter_cons_of_neg (by simp [hsynth]),
      List.filter_cons_of_pos (by simp [h])]
    rfl

/-! Manager and its transactions, `manager.rs`. -/

/-- Message taxonomy of the manager-side protocol (`message.rs` as consumed
by `manager.rs`); only the constructors the embedded code sends. -/
inductive MMessage where
  | lock (txid : TxId) (kind : LockKind)
  | read (txid : TxId) (basis : BasisStamp)
  | write (txid : TxId) (value : Value)
  | release (txid : TxId) (basis : BasisStamp)

/-- Manager-side outgoing message with its destination. -/
abbrev MSend := Address × MMessage

/-- Read-request state of a lock, `manager.rs` `enum ReadRequest`. -/
inductive ReadRequest where
  | noReq
  | pending

/-- Value slot of a lock, `manager.rs` `enum LockValue`. -/
inductive LockValue where
  | none (request : ReadRequest)
  | some (value : Value)

/-- Lock record of a transaction, `manager.rs` `struct Lock`. -/
structure Lock where
  value : LockValue
  wrote : Bool
  basis : BasisStamp
  roots : List Address
  version : Version

/-- Address together with the version the transaction expects,
`actor.rs` `VersionedAddress` as used by `manager.rs`. -/
structure VersionedAddress where
  address : Address
  version : Version

/-- Node name, `expr.rs` `struct Name`. -/
structure Name where
  text : String
deriving DecidableEq

/-- Staged node of an upgrade, `manager.rs` `enum NewNode`. -/
inductive NewNode where
  | var (replace : Option VersionedAddress) (value : Value)
  | defn (replace : Option VersionedAddress)

/-- Identifier as the transaction resolves it, `manager.rs` `enum IdentRef`. -/
inductive IdentRef where
  | new (name : Name)
  | existing (address : VersionedAddress)

/-- Transaction state, `manager.rs` `struct Transaction` (the `kind` AST is
carried outside this embedding). -/
structure Transaction where
  id : TxId
  may_write : List Address
  pending_locks : List Address
  locks : List (Address × Lock)
  new_nodes : List (Name × NewNode)
  deleted_nodes : List (Address × Version)

/-- Lock request `Transaction::lock` (`manager.rs`): an already held lock is
returned; otherwise the first request inserts into `pending_locks` and sends
`Lock` (upgraded to Exclusive when the address is in `may_write`), and the
call yields no lock yet. -/
def Transaction.lock (tx : Transaction) (address : Address) (kind : LockKind) :
    Option Lock × Transaction × List MSend :=
  match getA tx.locks address with
  | some lock => (some lock, tx, [])
  | none =>
    if address ∈ tx.pending_locks then (none, tx, [])
    else
      let kind' := if address ∈ tx.may_write then LockKind.exclusive else kind
      (none, { tx with pending_locks := tx.pending_locks ++ [address] },
        [(address, MMessage.lock tx.id kind')])

/-- Versioned lock request `Transaction::lock_versioned` (`manager.rs`): a
held lock whose version differs from the requested one fails with
`VersionMismatch`. -/
def Transaction.lock_versioned (tx : Transaction) (va : VersionedAddress)
    (kind : LockKind) : Except String (Option Lock × Transaction × List MSend) :=
  match tx.lock va.address kind with
  | (some lock, tx', sends) =>
    if lock.version = va.version then .ok (some lock, tx', sends)
    else .error "VersionMismatch"
  | (none, tx', sends) => .ok (none, tx', sends)

/-- Write of an action, `Transaction::write` (`manager.rs` lines 299-349).
A staged new node is written in place.  An existing address requires an
exclusive lock (requested if absent, the write failing for now); a pending
read defers the write; a lock with no value resets its basis to its own
address at the iteration the lock's basis carried (note: the iteration is
*not* incremented here), then the value is staged, `wrote` is set, and
`Write{txid, value}` is sent. -/
def Transaction.write (tx : Transaction) (ident : IdentRef) (value : Value) :
    Except String (Bool × Transaction × List MSend) :=
  match ident with
  | .new name =>
    match getA tx.new_nodes name with
    | Option.none => .error "can't write to nonexistent node"
    | Option.some (NewNode.var replace _) =>
      .ok (true, { tx with new_nodes := setA tx.new_nodes name (.var replace value) }, [])
    | Option.some (NewNode.defn _) => .error "can't write to definition"
  | .existing address =>
    match tx.lock_versioned address .exclusive with
    | .error e => .error e
    | .ok (Option.none, tx', sends) => .ok (false, tx', sends)
    | .ok (Option.some lock, tx', sends) =>
      match lock.value with
      | .none .pending => .ok (false, tx', sends)
      | .none .noReq =>
        let own_iteration := lock.basis.latest address.address
        let lock1 := { lock with basis := BasisStamp.empty.add address.address own_iteration }
        let lock2 := { lock1 with value := .some value, wrote := true }
        .ok (true, { tx' with locks := setA tx'.locks address.address lock2 },
          sends ++ [(address.address, MMessage.write tx.id value)])
      | .some _ =>
        let lock2 := { lock with value := .some value, wrote := true }
        .ok (true, { tx' with locks := setA tx'.locks address.address lock2 },
          sends ++ [(address.address, MMessage.write tx.id value)])

/-- Commit-basis fold of `Manager::eval` for a completed action
(`manager.rs` lines 98-133): the bases of exactly the locks whose value slot
is filled are merged; locks with no value contribute nothing, and no
iteration is advanced. -/
def commit_basis (locks : List (Address × Lock)) : BasisStamp :=
  locks.foldl
    (fun basis p =>
      match p.2.value with
      | .some _ => basis.merge_from p.2.basis
      | .none _ => basis)
    BasisStamp.empty

/-- Release fan-out of `Manager::eval` for a completed action
(`manager.rs`): every held lock's node receives `Release{txid, basis}` with
the one merged commit basis. -/
def release_messages (txid : TxId) (locks : List (Address × Lock))
    (basis : BasisStamp) : List MSend :=
  locks.map fun p => (p.1, MMessage.release txid basis)

/-! Helper lemmas for the claim theorems. -/

/-- Count of `Preempt` messages naming one transaction in a send list. -/
def countPreempt (t : TxId) (msgs : List Send) : Nat :=
  (msgs.filter fun m =>
    match m.2 with
    | .preempt t' => decide (t' = t)
    | _ => false).length

theorem countPreempt_append (t : TxId) (a b : List Send) :
    countPreempt t (a ++ b) = countPreempt t a + countPreempt t b := by
  simp [countPreempt, List.filter_append]

theorem countPreempt_single (t c : TxId) (address : Address) :
    countPreempt t [(address, Message.preempt c)] = if c = t then 1 else 0 := by
  by_cases h : c = t <;> simp [countPreempt, h]

theorem preemptAll_count (t : TxId) :
    ∀ (calls p : List TxId) (m : List Send),
      countPreempt t (preemptAll p m calls).2 =
        countPreempt t m + (if t ∈ p then 0 else if t ∈ calls then 1 else 0) := by
  intro calls
  induction calls with
  | nil => intro p m; simp [preemptAll]
  | cons c rest ih =>
    intro p m
    rw [preemptAll, Node.preempt]
    by_cases hc : c ∈ p
    · rw [if_pos hc]
      rw [ih p (m ++ [])]
      simp only [List.append_nil]
      by_cases hp : t ∈ p
      · simp [hp]
      · have hne : ¬t = c := fun hq => hp (hq ▸ hc)
        simp [hp, List.mem_cons, hne]
    · rw [if_neg hc]
      rw [ih (p ++ [c]) (m ++ [(c.address, Message.preempt c)])]
      rw [countPreempt_append, countPreempt_single]
      by_cases htc : c = t
      · subst htc
        have hnp : ¬c ∈ p := hc
        simp [hnp, List.mem_append]
      · have h1 : t ∈ p ++ [c] ↔ t ∈ p := by
          simp only [List.mem_append, List.mem_singleton]
          exact or_iff_left (fun hq => htc hq.symm)
        by_cases hp : t ∈ p
        · simp [hp, h1.mpr hp, htc]
        · have : ¬t ∈ p ++ [c] := fun hq => hp (h1.mp hq)
          have hne : ¬t = c := fun hq => htc hq.symm
          simp [hp, this, htc, List.mem_cons, hne]

theorem grantLoop_exclusive_frame :
    ∀ (q : List (TxId × LockKind)) (t : TxId) (s : SharedLockState)
      (e : ExclusiveLockState) (p : List TxId) (m : List Send)
      (g : List (TxId × LockKind)),
      (grantLoop (.exclusive t s e) p m g q).1 = .exclusive t s e ∧
      (grantLoop (.exclusive t s e) p m g q).2.2.2 = g ∧
      ∀ x ∈ (grantLoop (.exclusive t s e) p m g q).2.2.1,
        x ∈ m ∨ ∃ t', x = (t'.address, Message.preempt t') := by
  intro q
  cases q with
  | nil => intro t s e p m g; exact ⟨rfl, rfl, fun x hx => Or.inl hx⟩
  | cons head rest =>
    obtain ⟨txid, kind⟩ := head
    intro t s e p m g
    by_cases hlt : TxId.lt txid t
    · by_cases hp : txid ∈ p
      · have heq : grantLoop (.exclusive t s e) p m g ((txid, kind) :: rest)
            = (.exclusive t s e, p, m ++ [], g) := by
          simp [grantLoop, hlt, Node.preempt, hp]
        rw [heq]
        exact ⟨rfl, rfl, fun x hx => Or.inl (by simpa using hx)⟩
      · have heq : grantLoop (.exclusive t s e) p m g ((txid, kind) :: rest)
            = (.exclusive t s e, p ++ [txid],
                m ++ [(txid.address, Message.preempt txid)], g) := by
          simp [grantLoop, hlt, Node.preempt, hp]
        rw [heq]
        refine ⟨rfl, rfl, fun x hx => ?_⟩
        rcases List.mem_append.mp hx with hx | hx
        · exact Or.inl hx
        · exact Or.inr ⟨txid, List.mem_singleton.mp hx⟩
    · have heq : grantLoop (.exclusive t s e) p m g ((txid, kind) :: rest)
          = (.exclusive t s e, p, m, g) := by
        simp [grantLoop, hlt]
      rw [heq]
      exact ⟨rfl, rfl, fun x hx => Or.inl hx⟩

theorem grantLoop_shared_frame :
    ∀ (q : List (TxId × LockKind)) (hm : List (TxId × SharedLockState))
      (p : List TxId) (m : List Send) (g : List (TxId × LockKind)),
      ∃ hm', (grantLoop (.shared hm) p m g q).1 = .shared hm' ∧
        ∀ x ∈ (grantLoop (.shared hm) p m g q).2.2.2, x ∈ g ∨ x.2 = LockKind.shared := by
  intro q
  induction q with
  | nil => intro hm p m g; exact ⟨hm, rfl, fun x hx => Or.inl hx⟩
  | cons head rest ih =>
    obtain ⟨txid, kind⟩ := head
    intro hm p m g
    cases kind with
    | shared =>
      obtain ⟨hm', h1, h2⟩ :=
        ih (btreeInsertB hm txid SharedLockState.default) p m (g ++ [(txid, LockKind.shared)])
      have heq : grantLoop (.shared hm) p m g ((txid, LockKind.shared) :: rest)
          = grantLoop (.shared (btreeInsertB hm txid SharedLockState.default)) p m
              (g ++ [(txid, LockKind.shared)]) rest := rfl
      refine ⟨hm', ?_, ?_⟩
      · rw [heq]; exact h1
      · intro x hx
        rw [heq] at hx
        rcases h2 x hx with hx' | hx'
        · rcases List.mem_append.mp hx' with hx' | hx'
          · exact Or.inl hx'
          · rcases List.mem_singleton.mp hx'
            exact Or.inr rfl
        · exact Or.inr hx'
    | exclusive =>
      refine ⟨hm, rfl, fun x hx => Or.inl hx⟩

theorem grantLoop_granted_acc :
    ∀ (q : List (TxId × LockKind)) (held : HeldLocks) (p : List TxId) (m : List Send)
      (g : List (TxId × LockKind)),
      (grantLoop held p m g q).2.2.2 = g ++ (grantLoop held p m [] q).2.2.2 := by
  intro q
  induction q with
  | nil => intro held p m g; simp [grantLoop]
  | cons head rest ih =>
    obtain ⟨txid, kind⟩ := head
    intro held p m g
    cases held with
    | none =>
      cases kind with
      | shared =>
        show (grantLoop _ p m (g ++ [(txid, LockKind.shared)]) rest).2.2.2 = _
        rw [ih _ p m (g ++ [(txid, LockKind.shared)]),
          show (grantLoop (.none) p m [] ((txid, LockKind.shared) :: rest)).2.2.2
            = (grantLoop (.shared [(txid, SharedLockState.default)]) p m
                ([] ++ [(txid, LockKind.shared)]) rest).2.2.2 from rfl,
          ih _ p m ([] ++ [(txid, LockKind.shared)])]
        simp
      | exclusive =>
        show (grantLoop _ p m (g ++ [(txid, LockKind.exclusive)]) rest).2.2.2 = _
        rw [ih _ p m (g ++ [(txid, LockKind.exclusive)]),
          show (grantLoop (.none) p m [] ((txid, LockKind.exclusive) :: rest)).2.2.2
            = (grantLoop
                (.exclusive txid SharedLockState.default ExclusiveLockState.default) p m
                ([] ++ [(txid, LockKind.exclusive)]) rest).2.2.2 from rfl,
          ih _ p m ([] ++ [(txid, LockKind.exclusive)])]
        simp
    | shared hm =>
      cases kind with
      | shared =>
        show (grantLoop _ p m (g ++ [(txid, LockKind.shared)]) rest).2.2.2 = _
        rw [ih _ p m (g ++ [(txid, LockKind.shared)]),
          show (grantLoop (.shared hm) p m [] ((txid, LockKind.shared) :: rest)).2.2.2
            = (grantLoop (.shared (btreeInsertB hm txid SharedLockState.default)) p m
                ([] ++ [(txid, LockKind.shared)]) rest).2.2.2 from rfl,
          ih _ p m ([] ++ [(txid, LockKind.shared)])]
        simp
      | exclusive => simp [grantLoop]
    | exclusive t s e =>
      by_cases hlt : TxId.lt txid t <;> simp [grantLoop, hlt]

theorem grantLoop_exclusive_last :
    ∀ (q : List (TxId × LockKind)) (held : HeldLocks) (p : List TxId) (m : List Send)
      (pre : List (TxId × LockKind)) (x : TxId × LockKind)
      (post : List (TxId × LockKind)),
      (grantLoop held p m [] q).2.2.2 = pre ++ x :: post →
      x.2 = LockKind.exclusive → post = [] := by
  intro q
  induction q with
  | nil =>
    intro held p m pre x post h hx
    cases held with
    | none => simp [grantLoop] at h
    | shared hm => simp [grantLoop] at h
    | exclusive t s e => simp [grantLoop] at h
  | cons head rest ih =>
    obtain ⟨txid, kind⟩ := head
    intro held p m pre x post h hx
    cases held with
    | exclusive t s e =>
      obtain ⟨-, hg, -⟩ := grantLoop_exclusive_frame ((txid, kind) :: rest) t s e p m []
      rw [hg] at h
      simp at h
    | shared hm =>
      obtain ⟨hm', -, hall⟩ := grantLoop_shared_frame ((txid, kind) :: rest) hm p m []
      have hmem : x ∈ (grantLoop (.shared hm) p m [] ((txid, kind) :: rest)).2.2.2 := by
        rw [h]
        exact List.mem_append.mpr (Or.inr (List.mem_cons_self _ _))
      rcases hall x hmem with hx' | hx'
      · simp at hx'
      · rw [hx] at hx'
        cases hx'
    | none =>
      cases kind with
      | shared =>
        have heq : (grantLoop HeldLocks.none p m [] ((txid, LockKind.shared) :: rest)).2.2.2
            = (grantLoop (.shared [(txid, SharedLockState.default)]) p m
                [(txid, LockKind.shared)] rest).2.2.2 := rfl
        obtain ⟨hm', -, hall⟩ :=
          grantLoop_shared_frame rest [(txid, SharedLockState.default)] p m
            [(txid, LockKind.shared)]
        have hmem : x ∈ (grantLoop (.shared [(txid, SharedLockState.default)]) p m
            [(txid, LockKind.shared)] rest).2.2.2 := by
          rw [← heq, h]
          exact List.mem_append.mpr (Or.inr (List.mem_cons_self _ _))
        rcases hall x hmem with hx' | hx'
        · rcases List.mem_singleton.mp hx' with hx'
          rw [hx'] at hx
          cases hx
        · rw [hx] at hx'
          cases hx'
      | exclusive =>
        have heq : (grantLoop HeldLocks.none p m [] ((txid, LockKind.exclusive) :: rest)).2.2.2
            = (grantLoop
                (.exclusive txid SharedLockState.default ExclusiveLockState.default) p m
                [(txid, LockKind.exclusive)] rest).2.2.2 := rfl
        obtain ⟨-, hg, -⟩ :=
          grantLoop_exclusive_frame rest txid SharedLockState.default
            ExclusiveLockState.default p m [(txid, LockKind.exclusive)]
        rw [heq, hg] at h
        cases pre with
        | nil =>
          simp only [List.nil_append] at h
          cases h
          rfl
        | cons y pre' =>
          simp only [List.cons_append] at h
          simp at h

/-! Claim theorems. -/

/-- Address of the single input of the example definition. -/
def batchInputAddr : ReactiveAddress := ⟨⟨0⟩, ⟨0⟩⟩

/-- Roots capability for the example definition: the input is its own root. -/
def batchRoots : ReactiveAddress → Option (List ReactiveAddress) :=
  fun a => if a = batchInputAddr then some [batchInputAddr] else none

/-- Definition with exactly one input holding a baseline and one queued
update: the batch the spec describes exists (the update's basis dominates
the baseline on the input's root). -/
def batchDefn : Definition :=
  { inputs := [(batchInputAddr,
      { value := some { value := .integer 0, basis := ⟨[(batchInputAddr, 0)]⟩ }
        updates := [{ value := .integer 2, basis := ⟨[(batchInputAddr, 1)]⟩ }] })]
    expr := .read batchInputAddr }

/-- C1: the claim says `find_and_apply_batch` returns the first queued
update's value for a definition with one input and a non-empty queue.  The
code instead returns `None` there — its `explored.contains(address)` guard
is inverted relative to its own comment, so the seed's own queue always
starts empty and every seed fails; in fact no definition state ever
produces a value. -/
theorem C1_find_and_apply_batch_returns_none :
    batchDefn.find_and_apply_batch batchRoots = .ok (none, batchDefn) ∧
    (batchDefn.inputs.map fun p => p.2.updates.length) = [1] ∧
    ∀ (roots : ReactiveAddress → Option (List ReactiveAddress)) (d : Definition),
      d.find_and_apply_batch roots = .ok (none, d) ∨
        ∃ e, d.find_and_apply_batch roots = .error e :=
  ⟨rfl, rfl, find_and_apply_batch_no_value⟩

/-- Older transaction requesting the exclusive lock in the Wound-Wait
scenario. -/
def wwT0 : TxId := ⟨.high, 0, ⟨10⟩⟩

/-- Younger transaction that already holds the exclusive lock. -/
def wwT1 : TxId := ⟨.high, 1, ⟨11⟩⟩

/-- Node in the two-transaction scenario: young `wwT1` holds Exclusive,
older `wwT0` is queued. -/
def wwNode : Node :=
  { Node.new with
      queued := [(wwT0, .exclusive)]
      held := .exclusive wwT1 SharedLockState.default ExclusiveLockState.default }

/-- C2: the claim (and the comment in `grant_locks` itself) says the node
preempts the exclusive *holder* when an older transaction queues.  The code
passes the candidate `txid` to `Node::preempt` instead: in the scenario it
is the older waiter `wwT0` that receives `Preempt{wwT0}` at its own
address, the holder `wwT1` receives nothing, and no lock is granted. -/
theorem C2_grant_locks_preempts_requester :
    Node.grant_locks ⟨1⟩ wwNode =
      ({ wwNode with preempted := [wwT0] }, [(wwT0.address, Message.preempt wwT0)]) ∧
    wwT0.address = ⟨10⟩ ∧ wwT1.address = ⟨11⟩ ∧ TxId.lt wwT0 wwT1 = true :=
  ⟨rfl, rfl, rfl, by decide⟩

/-- Node state after the first `Lock{wwT0, Exclusive}` is granted. -/
def lockNode1 : Node :=
  { Node.new with
      held := .exclusive wwT0 SharedLockState.default ExclusiveLockState.default }

/-- Node state after a second `Lock{wwT0, Exclusive}` arrives while the
first is held: re-queued as a fresh request. -/
def lockNode2 : Node :=
  { lockNode1 with queued := [(wwT0, .exclusive)] }

/-- C10: the `lock was double-requested` panic fires exactly when the
txid is still in `queued`; granting removes it from `queued`, so a second
`Lock` for an already granted txid does not panic and is enqueued afresh. -/
theorem C10_lock_double_request :
    (∀ (me : Address) (st : Node) (txid : TxId) (kind : LockKind),
        (∃ e, Node.handle_lock me st txid kind = .error e) ↔ txid ∈ keysA st.queued) ∧
    Node.handle_lock ⟨1⟩ Node.new wwT0 .exclusive =
      .ok (lockNode1, [(wwT0.address, .lockGranted wwT0 ⟨1⟩)]) ∧
    Node.handle_lock ⟨1⟩ lockNode1 wwT0 .exclusive = .ok (lockNode2, []) ∧
    wwT0 ∈ keysA lockNode2.queued := by
  refine ⟨?_, rfl, rfl, by decide⟩
  intro me st txid kind
  constructor
  · rintro ⟨e, he⟩
    by_cases hmem : txid ∈ keysA st.queued
    · exact hmem
    · rw [Node.handle_lock, if_neg hmem] at he
      cases he
  · intro hmem
    exact ⟨_, by rw [Node.handle_lock, if_pos hmem]⟩

/-- C9: a `Propagate` whose sender is not a registered import returns early
from the handler — the node state is unchanged, nothing is sent, nothing
panics. -/
theorem C9_propagate_unknown_sender (me : Address) (st : Node)
    (sender : ReactiveAddress) (value : StampedValue)
    (h : getA st.imports sender = none) :
    Node.handle_propagate me st sender value = .ok (st, []) := by
  rw [Node.handle_propagate, h]

/-- Import registered at the witness node. -/
def pgImportAddr : ReactiveAddress := ⟨⟨0⟩, ⟨0⟩⟩

/-- Sender that is not among the witness node's imports. -/
def pgUnknown : ReactiveAddress := ⟨⟨9⟩, ⟨0⟩⟩

/-- Witness node: one registered import feeding one definition reactive. -/
def pgNode : Node :=
  { Node.new with
      imports := [(pgImportAddr, { roots := [pgImportAddr], importers := [⟨0⟩] })]
      reactives := [(⟨0⟩,
        { definition := some
            { inputs := [(pgImportAddr, { value := none, updates := [] })]
              expr := .read pgImportAddr }
          value := none
          read_by := RBasisStamp.empty
          changed := false })]
      subscriptions := [(⟨0⟩, [])]
      roots := [(⟨0⟩, [pgImportAddr])]
      topo := [⟨0⟩] }

/-- Update carried by the stray `Propagate` of the witness. -/
def pgValue : StampedValue := { value := .integer 1, basis := ⟨[(pgImportAddr, 1)]⟩ }

/-- Witness for C9 at a concrete node and stray sender. -/
theorem C9_propagate_unknown_sender_witness :
    getA pgNode.imports pgUnknown = none ∧
    Node.handle_propagate ⟨1⟩ pgNode pgUnknown pgValue = .ok (pgNode, []) :=
  ⟨rfl, C9_propagate_unknown_sender ⟨1⟩ pgNode pgUnknown pgValue rfl⟩

/-- C8: `Node::preempt` inserts into the `preempted` set before sending and
sends only on first insertion; the set is never cleared, so over any
sequence of preempt calls a node emits at most one `Preempt` naming a given
transaction (none at all if it was already recorded). -/
theorem C8_preempt_at_most_once :
    (∀ (calls p : List TxId) (m : List Send) (t : TxId),
        countPreempt t (preemptAll p m calls).2 =
          countPreempt t m + (if t ∈ p then 0 else if t ∈ calls then 1 else 0)) ∧
    (∀ (calls : List TxId) (t : TxId), countPreempt t (preemptAll [] [] calls).2 ≤ 1) := by
  refine ⟨fun calls p m t => preemptAll_count t calls p m, ?_⟩
  intro calls t
  rw [preemptAll_count t calls [] []]
  have h0 : countPreempt t [] = 0 := rfl
  rw [h0]
  by_cases hc : t ∈ calls <;> simp [hc]

/-- C7: `merge_from` is a semilattice join on basis stamps.  Merging the
empty stamp is the structural identity; commutativity and associativity
hold for the pointwise reading (`latest`, absent root = iteration 0).  The
key-uniqueness hypotheses state what the source's `HashMap` representation
guarantees for every stamp it builds. -/
theorem C7_basis_stamp_semilattice (a b c : BasisStamp)
    (ha : (keysA a.root_iterations).Nodup) (hb : (keysA b.root_iterations).Nodup)
    (hc : (keysA c.root_iterations).Nodup) :
    a.merge_from BasisStamp.empty = a ∧
    BasisStamp.equiv (a.merge_from b) (b.merge_from a) ∧
    BasisStamp.equiv (a.merge_from (b.merge_from c)) ((a.merge_from b).merge_from c) := by
  refine ⟨rfl, ?_, ?_⟩
  · intro k
    show latestL (mergeL a.root_iterations b.root_iterations) k
      = latestL (mergeL b.root_iterations a.root_iterations) k
    rw [latestL_mergeL _ _ hb k, latestL_mergeL _ _ ha k, Nat.max_comm]
  · intro k
    show latestL (mergeL a.root_iterations (mergeL b.root_iterations c.root_iterations)) k
      = latestL (mergeL (mergeL a.root_iterations b.root_iterations) c.root_iterations) k
    have hbc : (keysA (mergeL b.root_iterations c.root_iterations)).Nodup :=
      nodup_keysA_mergeL _ _ hb
    rw [latestL_mergeL _ _ hbc k, latestL_mergeL _ _ hc k, latestL_mergeL _ _ hc k,
      latestL_mergeL _ _ hb k, Nat.max_assoc]

/-- Sample stamp for the C7 witness. -/
def sampleStampA : BasisStamp := ⟨[(⟨0⟩, 1), (⟨1⟩, 4)]⟩

/-- Sample stamp for the C7 witness. -/
def sampleStampB : BasisStamp := ⟨[(⟨1⟩, 2), (⟨2⟩, 5)]⟩

/-- Sample stamp for the C7 witness. -/
def sampleStampC : BasisStamp := ⟨[(⟨0⟩, 7)]⟩

/-- Witness for C7 at three concrete stamps. -/
theorem C7_basis_stamp_semilattice_witness :
    (keysA sampleStampA.root_iterations).Nodup ∧
    (keysA sampleStampB.root_iterations).Nodup ∧
    (keysA sampleStampC.root_iterations).Nodup ∧
    (sampleStampA.merge_from BasisStamp.empty = sampleStampA ∧
      BasisStamp.equiv (sampleStampA.merge_from sampleStampB)
        (sampleStampB.merge_from sampleStampA) ∧
      BasisStamp.equiv (sampleStampA.merge_from (sampleStampB.merge_from sampleStampC))
        ((sampleStampA.merge_from sampleStampB).merge_from sampleStampC)) :=
  ⟨by decide, by decide, by decide,
    C7_basis_stamp_semilattice sampleStampA sampleStampB sampleStampC
      (by decide) (by decide) (by decide)⟩

/-- C6: when the run loop pops a message for a retired target it synthesises
`Unreachable{message}` back to the original sender and handles it next,
unless the popped message is itself an `Unreachable`, which is dropped.
The characterization shows each non-`Unreachable` message yields exactly one
`Unreachable` (so the queue always drains with no ping-pong), and the
two-retired-peers scenario produces exactly one `Unreachable` per
direction. -/
theorem C6_unreachable_routing :
    (∀ q : List QueuedMessage,
        runRetired q =
          (q.filter fun qm => !isUnreachable qm.message).map synthUnreachable) ∧
    (∀ (a b : Address) (m1 m2 : Message),
        isUnreachable m1 = false → isUnreachable m2 = false →
        runRetired [⟨a, b, m1⟩, ⟨b, a, m2⟩] =
          [⟨b, a, .unreachable m1⟩, ⟨a, b, .unreachable m2⟩]) := by
  refine ⟨runRetired_characterization, ?_⟩
  intro a b m1 m2 h1 h2
  rw [runRetired_characterization]
  simp [h1, h2, synthUnreachable]

/-- Held-table manipulation of the `Message::Commit` handler (`node.rs`):
`std::mem::replace` empties the table, the holder's data is extracted
(fatal when it holds nothing), and remaining shared holders are restored. -/
def commitRemoveHeld : HeldLocks → TxId →
    Except String (HeldLocks × SharedLockState × ExclusiveLockState)
  | .none, _ => .error "release of unheld lock requested"
  | .shared held, txid =>
    match getA held txid with
    | some data =>
      let held' := removeA held txid
      .ok (if held'.isEmpty then HeldLocks.none else .shared held', data,
        ExclusiveLockState.default)
    | none => .error "release of unheld lock requested"
  | .exclusive held_txid shared_data exclusive_data, txid =>
    if held_txid = txid then .ok (.none, shared_data, exclusive_data)
    else .error "release of unheld lock requested"

/-- C4: the held-lock table of the embedding is the source's three-shape
tagged union (`HeldLocks`), so every handler state is one of the three
shapes by construction; operationally, `grant_locks` grants nothing while an
Exclusive lock is held (and only emits `Preempt`s), keeps a Shared table
Shared (so no Exclusive is granted over Shared holders), and a pass that
grants an Exclusive lock grants nothing after it. -/
theorem C4_held_locks_shapes :
    (∀ (me : Address) (st : Node) (t : TxId) (s : SharedLockState)
        (e : ExclusiveLockState), st.held = .exclusive t s e →
        (Node.grant_locks me st).1.held = st.held ∧
        (Node.grant_locks me st).1.queued = st.queued ∧
        ∀ p ∈ (Node.grant_locks me st).2, ∃ t', p = (t'.address, Message.preempt t')) ∧
    (∀ (me : Address) (st : Node) (hm : List (TxId × SharedLockState)),
        st.held = .shared hm →
        ∃ hm', (Node.grant_locks me st).1.held = .shared hm') ∧
    (∀ (q : List (TxId × LockKind)) (held : HeldLocks) (p : List TxId)
        (m : List Send) (pre : List (TxId × LockKind)) (x : TxId × LockKind)
        (post : List (TxId × LockKind)),
        (grantLoop held p m [] q).2.2.2 = pre ++ x :: post →
        x.2 = LockKind.exclusive → post = []) ∧
    (∀ (held : HeldLocks) (txid : TxId) (r : HeldLocks × SharedLockState × ExclusiveLockState),
        commitRemoveHeld held txid = .ok r →
        r.1 = .none ∨ ∃ hm, r.1 = .shared hm) := by
  refine ⟨?_, ?_, grantLoop_exclusive_last, ?_⟩
  · intro me st t s e hheld
    obtain ⟨h1, h2, h3⟩ := grantLoop_exclusive_frame st.queued t s e st.preempted [] []
    simp only [Node.grant_locks]
    rw [hheld]
    refine ⟨h1, ?_, ?_⟩
    · rw [h2]
      rfl
    · intro p hp
      rw [h2] at hp
      simp only [List.map_nil, List.append_nil] at hp
      rcases h3 p hp with hp' | hp'
      · simp at hp'
      · exact hp'
  · intro me st hm hheld
    obtain ⟨hm', h1, -⟩ := grantLoop_shared_frame st.queued hm st.preempted [] []
    refine ⟨hm', ?_⟩
    simp only [Node.grant_locks]
    rw [hheld]
    exact h1
  · intro held txid r h
    cases held with
    | none => cases h
    | shared hm =>
      simp only [commitRemoveHeld] at h
      cases hg : getA hm txid with
      | none => rw [hg] at h; cases h
      | some data =>
        rw [hg] at h
        simp only [Except.ok.injEq] at h
        rw [← h]
        by_cases he : (removeA hm txid).isEmpty
        · exact Or.inl (by simp [he])
        · exact Or.inr ⟨removeA hm txid, by simp [he]⟩
    | exclusive ht s e =>
      simp only [commitRemoveHeld] at h
      by_cases ht' : ht = txid
      · rw [if_pos ht'] at h
        simp only [Except.ok.injEq] at h
        rw [← h]
        exact Or.inl rfl
      · rw [if_neg ht'] at h
        cases h

/-- Address of the variable written in the C3 counterexample. -/
def cbAddr : Address := ⟨0⟩

/-- Versioned address of the written variable. -/
def cbVa : VersionedAddress := ⟨cbAddr, 0⟩

/-- Transaction id of the C3 counterexample. -/
def cbTxId : TxId := ⟨.low, 0, ⟨5⟩⟩

/-- Transaction holding one exclusive lock on `cbAddr`, granted with basis
`{cbAddr ↦ 5}` (the variable's held iteration is 5) and no reads. -/
def cbTx0 : Transaction :=
  { id := cbTxId, may_write := [], pending_locks := []
    locks := [(cbAddr,
      { value := .none .noReq, wrote := false, basis := ⟨[(cbAddr, 5)]⟩
        roots := [cbAddr], version := 0 })]
    new_nodes := [], deleted_nodes := [] }

/-- C3 counterexample: after `Transaction::write` stages `Integer 2` on the
lock, the commit basis the manager releases maps the written address to the
held iteration `5`, not `5 + 1` as the claim states — `manager.rs` never
increments the iteration at commit. -/
theorem C3_commit_basis_counterexample :
    (cbTx0.write (.existing cbVa) (.integer 2)).map
        (fun r => (commit_basis r.2.1.locks).latest cbAddr) = .ok 5 ∧
    (5 : Nat) ≠ 5 + 1 :=
  ⟨rfl, by decide⟩

theorem commit_basis_fold (locks : List (Address × Lock)) :
    ∀ (acc : BasisStamp),
      (∀ p ∈ locks, (keysA p.2.basis.root_iterations).Nodup) →
      ∀ k,
        (locks.foldl
          (fun basis p =>
            match p.2.value with
            | .some _ => basis.merge_from p.2.basis
            | .none _ => basis)
          acc).latest k =
        max (acc.latest k)
          (((locks.filter fun p =>
              match p.2.value with
              | .some _ => true
              | .none _ => false).map
            fun p => p.2.basis.latest k).foldr max 0) := by
  induction locks with
  | nil => intro acc _ k; simp [BasisStamp.latest]
  | cons p rest ih =>
    intro acc hnd k
    have hp : (keysA p.2.basis.root_iterations).Nodup := hnd p (List.mem_cons_self _ _)
    have hrest : ∀ q ∈ rest, (keysA q.2.basis.root_iterations).Nodup :=
      fun q hq => hnd q (List.mem_cons_of_mem _ hq)
    cases hv : p.2.value with
    | none r =>
      simp only [List.foldl_cons, hv, List.filter_cons]
      rw [ih acc hrest k]
      simp
    | some v =>
      simp only [List.foldl_cons, hv, List.filter_cons]
      rw [ih (acc.merge_from p.2.basis) hrest k]
      have hm : (acc.merge_from p.2.basis).latest k = max (acc.latest k) (p.2.basis.latest k) :=
        latestL_mergeL _ _ hp k
      rw [hm]
      simp only [hv, if_true, List.map_cons, List.foldr_cons]
      have hx : ∀ x y z : Nat, max (max x y) z = max x (max y z) := fun x y z => Nat.max_assoc x y z
      simp [hx]

/-- C3 amended: the commit basis of a completed action merges the bases of
exactly the locks whose value slot is filled (whether filled by a completed
read or by a local write); a write to a lock that had no value resets that
lock's basis to its own address at the iteration carried by the grant basis
— without incrementing it — and no lock's iteration is advanced at commit. -/
theorem C3_commit_basis_characterization :
    (∀ (locks : List (Address × Lock)),
        (∀ p ∈ locks, (keysA p.2.basis.root_iterations).Nodup) →
        ∀ k, (commit_basis locks).latest k =
          ((locks.filter fun p =>
              match p.2.value with
              | .some _ => true
              | .none _ => false).map
            fun p => p.2.basis.latest k).foldr max 0) ∧
    (∀ (tx : Transaction) (va : VersionedAddress) (value : Value) (lock : Lock),
        getA tx.locks va.address = some lock →
        lock.version = va.version →
        lock.value = .none .noReq →
        tx.write (.existing va) value =
          .ok (true,
            { tx with
                locks :=
                  setA tx.locks va.address
                    { lock with
                        value := .some value
                        wrote := true
                        basis := BasisStamp.empty.add va.address
                          (lock.basis.latest va.address) } },
            [(va.address, MMessage.write tx.id value)])) := by
  constructor
  · intro locks hnd k
    have h := commit_basis_fold locks BasisStamp.empty hnd k
    rw [commit_basis, h]
    simp [BasisStamp.latest, BasisStamp.empty, latestL_nil]
  · intro tx va value lock hget hver hval
    simp [Transaction.write, Transaction.lock_versioned, Transaction.lock, hget, hver, hval]

theorem bind_ok_eq {e a b : Type} (x : a) (f : a → Except e b) :
    (Except.ok x >>= f) = f x := rfl

/-- C5: the `Read` handler panics without a shared (or exclusive) lock; with
a value whose basis dominates the request basis on the reactive's roots it
replies `ReadResult` immediately and records the completion; otherwise it
records the request basis as pending and sends nothing; `grant_reads` later
answers a pending read exactly when a value satisfying the pending bound is
present, and sends nothing while the bound is unsatisfied. -/
theorem C5_read_protocol :
    (∀ (me : Address) (st : Node) (txid : TxId) (reactive : ReactiveId)
        (basis : RBasisStamp),
        st.held.sharedOf txid = none →
        ∃ e, Node.handle_read me st txid reactive basis = .error e) ∧
    (∀ (me : Address) (st : Node) (txid : TxId) (reactive : ReactiveId)
        (basis : RBasisStamp) (lockState : SharedLockState) (r : Reactive)
        (v : StampedValue) (roots : List ReactiveAddress),
        st.held.sharedOf txid = some lockState →
        getA st.reactives reactive = some r →
        getA lockState.reads reactive = none →
        r.value = some v →
        getA st.roots reactive = some roots →
        basis.prec_eq_wrt_roots v.basis roots = true →
        Node.handle_read me st txid reactive basis =
          .ok
            ({ st with
                held :=
                  st.held.setShared txid
                    { lockState with
                        reads :=
                          setA lockState.reads reactive
                            { pending := RBasisStamp.empty
                              complete := RBasisStamp.empty.merge_from v.basis } } },
              [(txid.address, Message.readResult txid ⟨me, reactive⟩ v)])) ∧
    (∀ (me : Address) (st : Node) (txid : TxId) (reactive : ReactiveId)
        (basis : RBasisStamp) (lockState : SharedLockState) (r : Reactive),
        st.held.sharedOf txid = some lockState →
        getA st.reactives reactive = some r →
        getA lockState.reads reactive = none →
        r.value = none →
        Node.handle_read me st txid reactive basis =
          .ok
            ({ st with
                held :=
                  st.held.setShared txid
                    { lockState with
                        reads :=
                          setA lockState.reads reactive
                            { pending := basis, complete := RBasisStamp.empty } } },
              [])) ∧
    (∀ (me : Address) (st : Node) (txid : TxId) (reactive : ReactiveId)
        (basis : RBasisStamp) (lockState : SharedLockState) (r : Reactive)
        (v : StampedValue) (roots : List ReactiveAddress),
        st.held.sharedOf txid = some lockState →
        getA st.reactives reactive = some r →
        getA lockState.reads reactive = none →
        r.value = some v →
        getA st.roots reactive = some roots →
        basis.prec_eq_wrt_roots v.basis roots = false →
        Node.handle_read me st txid reactive basis =
          .ok
            ({ st with
                held :=
                  st.held.setShared txid
                    { lockState with
                        reads :=
                          setA lockState.reads reactive
                            { pending := basis, complete := RBasisStamp.empty } } },
              [])) ∧
    (∀ (me : Address) (st : Node) (txid : TxId) (id : ReactiveId)
        (s : SharedLockState) (read : Read) (r : Reactive) (v : StampedValue)
        (roots : List ReactiveAddress),
        st.held = .shared [(txid, s)] →
        s.reads = [(id, read)] →
        read.complete.is_empty = true →
        getA st.reactives id = some r →
        r.value = some v →
        getA st.roots id = some roots →
        read.pending.prec_eq_wrt_roots v.basis roots = true →
        Node.grant_reads me st =
          .ok
            ({ st with
                held :=
                  HeldLocks.shared
                    [(txid,
                      { s with
                          reads :=
                            [(id,
                              { read with
                                  complete := read.complete.merge_from v.basis })] })] },
              [(txid.address, Message.readResult txid ⟨me, id⟩ v)])) ∧
    (∀ (me : Address) (st : Node) (txid : TxId) (id : ReactiveId)
        (s : SharedLockState) (read : Read) (r : Reactive) (v : StampedValue)
        (roots : List ReactiveAddress),
        st.held = .shared [(txid, s)] →
        s.reads = [(id, read)] →
        read.complete.is_empty = true →
        getA st.reactives id = some r →
        r.value = some v →
        getA st.roots id = some roots →
        read.pending.prec_eq_wrt_roots v.basis roots = false →
        Node.grant_reads me st =
          .ok
            ({ st with
                held := HeldLocks.shared [(txid, { s with reads := [(id, read)] })] },
              [])) := by
  refine ⟨?_, ?_, ?_, ?_, ?_, ?_⟩
  · intro me st txid reactive basis h
    exact ⟨_, by rw [Node.handle_read, h]⟩
  · intro me st txid reactive basis lockState r v roots hshared hreact hentry hval hroots hpe
    simp [Node.handle_read, hshared, hreact, hentry, hval, hroots, hpe]
  · intro me st txid reactive basis lockState r hshared hreact hentry hval
    simp [Node.handle_read, hshared, hreact, hentry, hval]
  · intro me st txid reactive basis lockState r v roots hshared hreact hentry hval hroots hpe
    simp [Node.handle_read, hshared, hreact, hentry, hval, hroots, hpe]
  · intro me st txid id s read r v roots hheld hreads hcomp hreact hval hroots hpe
    simp [Node.grant_reads, grantReadsShared, grantReadsLoop, bind_ok_eq, hheld, hreads,
      hcomp, hreact, hval, hroots, hpe]
  · intro me st txid id s read r v roots hheld hreads hcomp hreact hval hroots hpe
    simp [Node.grant_reads, grantReadsShared, grantReadsLoop, bind_ok_eq, hheld, hreads,
      hcomp, hreact, hval, hroots, hpe]
